import Mathlib

/-!
Verification of the template-instantiation core of the atlas task server.

The development shallowly embeds `TemplateManager` (`sortTasks`,
`instantiateTemplate`, `processTemplateTask`) together with the data model it
operates on.  External collaborators (path normalizer, variable interpolator,
metadata transformer, template store, task store) are bundled in an `Env`
record of function parameters; the few collaborator operations whose behaviour
the spec fixes (`validateRequiredVariables`, `extractTemplateRef`,
`removeTemplateRef`, `getTask`, `createTask`) are modelled from the spec's
contracts, as noted on the individual definitions.

JavaScript `Map`s and `Set`s are modelled as association lists / lists that
preserve insertion order, with `setKey` replacing in place (as `Map.set` does)
and `addToSet` appending only missing elements (as `Set.add` does).
The recursive depth-first `visit` of the topological sort is embedded with an
explicit fuel parameter; fuel-sufficiency and fuel-stability are proved below,
so the fuel never changes the computed result.
-/

namespace Atlas

/-- Values carried by template variables and variable contexts. -/
inductive Value where
  | str (s : String)
  | num (n : Int)
  | boolean (b : Bool)
  | null
deriving DecidableEq, Repr

/-- A variable context: name-to-value mapping (`Record<string, unknown>`). -/
abbrev VarCtx := List (String × Value)

/-- Key membership in a variable context (`name in variables`). -/
def hasKey (ctx : VarCtx) (n : String) : Bool :=
  ctx.any (fun kv => kv.1 == n)

/-- First-match lookup in a variable context. -/
def lookupVar (ctx : VarCtx) (n : String) : Option Value :=
  (ctx.find? (fun kv => kv.1 == n)).map (fun kv => kv.2)

/-- A nested-template directive discovered in task metadata. -/
structure TemplateRef where
  template : String
  /-- the `variables` field of the source -/
  vars : VarCtx
deriving DecidableEq, Repr

/-- Task metadata, with the optional embedded `TemplateRef` directive and the
fields the auto-generated ancestor milestones carry. -/
structure Meta where
  ref : Option TemplateRef := none
  autoGenerated : Bool := false
  childPath : Option String := none
deriving DecidableEq, Repr

/-- One task blueprint of a template (`TemplateTask` in the source). -/
structure TemplateTask where
  path : String
  title : String
  type : String
  description : Option String := none
  dependencies : Option (List String) := none
  metadata : Option Meta := none
deriving DecidableEq, Repr

/-- A declared template variable. -/
structure VariableDecl where
  name : String
  description : String := ""
  required : Bool
  default : Option Value := none
deriving DecidableEq, Repr

/-- A task template. -/
structure TaskTemplate where
  id : String
  name : String := ""
  description : String := ""
  tags : List String := []
  /-- the `variables` field of the source -/
  vars : List VariableDecl
  tasks : List TemplateTask
deriving DecidableEq, Repr

/-- Task kinds used by the task store. -/
inductive TaskType where
  | TASK
  | MILESTONE
deriving DecidableEq, Repr

/-- The input record passed to the task store's `createTask`. -/
structure TaskInput where
  path : String
  name : String
  type : TaskType
  description : Option String := none
  metadata : Option Meta := none
  dependencies : Option (List String) := none
  parentPath : Option String := none
deriving DecidableEq, Repr

/-! ### Path helpers

`splitPath` models JavaScript `s.split('/')` and `joinSegs` models
`parts.join('/')`; both are structural so that concrete runs evaluate. -/

/-- Auxiliary accumulator-based splitter for `splitPath`. -/
def splitPathAux : List Char → List Char → List String
  | [], acc => [String.mk acc.reverse]
  | c :: cs, acc =>
    if c = '/' then String.mk acc.reverse :: splitPathAux cs []
    else splitPathAux cs (c :: acc)

/-- JavaScript `s.split('/')`. -/
def splitPath (s : String) : List String :=
  splitPathAux s.data []

/-- JavaScript `parts.join('/')`. -/
def joinSegs : List String → String
  | [] => ""
  | [x] => x
  | x :: y :: xs => x ++ "/" ++ joinSegs (y :: xs)

/-! ### The dependency graph and map primitives -/

/-- Dependency graph: insertion-ordered map from node path to the
insertion-ordered set of paths it depends on. -/
abbrev Graph := List (String × List String)

/-- Insertion-ordered map from normalized path to blueprint. -/
abbrev TaskMap := List (String × TemplateTask)

/-- JavaScript `Map.set`: replace in place if the key exists, else append. -/
def setKey {α : Type} (m : List (String × α)) (k : String) (v : α) :
    List (String × α) :=
  if m.any (fun kv => kv.1 == k) then
    m.map (fun kv => if kv.1 == k then (k, v) else kv)
  else m ++ [(k, v)]

/-- JavaScript `Set.add`: append only if missing. -/
def addToSet (s : List String) (x : String) : List String :=
  if s.contains x then s else s ++ [x]

/-- `if (!graph.has(k)) graph.set(k, new Set())`. -/
def ensureNode (g : Graph) (k : String) : Graph :=
  if g.any (fun kv => kv.1 == k) then g else g ++ [(k, [])]

/-- `graph.get(k)?.add(d)`: add `d` to the dependency set of key `k`. -/
def addEdge (g : Graph) (k d : String) : Graph :=
  g.map (fun kv => if kv.1 == k then (k, addToSet kv.2 d) else kv)

/-- The dependency set of node `p` (`graph.get(p)`, empty when absent). -/
def depsOf (g : Graph) (p : String) : List String :=
  match g.find? (fun kv => kv.1 == p) with
  | some kv => kv.2
  | none => []

/-- The keys of the graph in insertion order. -/
def gKeys (g : Graph) : List String :=
  g.map (fun kv => kv.1)

/-! ### Graph construction (`sortTasks`, lines 64-106)

The whole interpolate-join-normalize pipeline applied to a raw template
string is abstracted as a single function `np : String → String`, because the
source applies the identical composite expression to task paths and to
dependency strings. -/

/-- One iteration of the graph-building loop of `sortTasks` for a single
blueprint: register the blueprint under its normalized path, reset its
dependency set, add explicit dependency edges (ensuring bare nodes), then add
the implicit parent edge derived from the normalized path. -/
def addTaskToGraph (np : String → String) (st : TaskMap × Graph)
    (task : TemplateTask) : TaskMap × Graph :=
  let p := np task.path
  let tm := setKey st.1 p task
  let g0 := setKey st.2 p []
  let g1 := (task.dependencies.getD []).foldl
    (fun g dep =>
      let nd := np dep
      addEdge (ensureNode g nd) p nd) g0
  let parts := splitPath p
  let g2 :=
    if parts.length > 1 then
      let par := joinSegs parts.dropLast
      addEdge (ensureNode g1 par) p par
    else g1
  (tm, g2)

/-- The task map and dependency graph built by `sortTasks`. -/
def buildGraph (np : String → String) (tasks : List TemplateTask) :
    TaskMap × Graph :=
  tasks.foldl (addTaskToGraph np) ([], [])

/-! ### The depth-first traversal (`sortTasks`, lines 108-125) -/

/-- Traversal state: the `visited` set and the `sorted` output list. -/
abbrev VState := List String × List String

/-- The recursive `visit` closure of the topological sort, with explicit fuel.
A node already visited is skipped; otherwise it is marked visited *before*
its dependencies are recursively visited, and appended to the output after
them.  Fuel-stability (`visit_fuel_stable`) shows the fuel bound used by
`topoOrder` never cuts the recursion short. -/
def visit (g : Graph) : Nat → String → VState → VState
  | 0, _, st => st
  | fuel + 1, p, st =>
    if st.1.contains p then st
    else
      let st1 : VState := (p :: st.1, st.2)
      let st2 := (depsOf g p).foldl (fun acc d => visit g fuel d acc) st1
      (st2.1, st2.2 ++ [p])

/-- The node order produced by the topological sort: visit every graph key in
insertion order, sharing the visited set. -/
def topoOrder (g : Graph) : List String :=
  ((gKeys g).foldl (fun st k => visit g (g.length + 1) k st) ([], [])).2

/-- Lookup of a blueprint by normalized path (`taskMap.get`). -/
def lookupTask (m : TaskMap) (p : String) : Option TemplateTask :=
  (m.find? (fun kv => kv.1 == p)).map (fun kv => kv.2)

/-- `TemplateManager.sortTasks`: build the graph, sort, and map the node order
back to blueprints, dropping bare nodes with no associated blueprint. -/
def sortTasksFn (np : String → String) (tasks : List TemplateTask) :
    List TemplateTask :=
  let tg := buildGraph np tasks
  (topoOrder tg.2).filterMap (lookupTask tg.1)

/-! ### The instantiation orchestrator and task materializer -/

/-- The failure taxonomy of an instantiation call.  `depthExceeded` is an
artifact of the fuel-bounded embedding of the recursion; it is reachable only
when the recursion nests deeper than the supplied fuel. -/
inductive TmplError where
  | circularTemplateReference (id : String)
  | missingVariables (names : List String)
  | templateNotFound (id : String)
  | taskCreationFailed
  | depthExceeded
deriving DecidableEq, Repr

/-- The external collaborators, bundled.  `normalize`, `joinP`, `ipStr`,
`ipMeta` and `transformMeta` are opaque function parameters; `templates` is
the template store's content; `createFails` chooses which store writes fail. -/
structure Env where
  normalize : String → String
  joinP : String → String → String
  ipStr : VarCtx → String → String
  ipMeta : VarCtx → Meta → Meta
  transformMeta : Meta → Meta
  templates : List (String × TaskTemplate)
  createFails : TaskInput → Bool

/-- The mutable world: created tasks (in creation order — these model the
task store's contents, including pre-existing tasks) and the Reentrancy Set
(`processingTemplates`). -/
structure World where
  tasks : List TaskInput
  processing : List String
deriving DecidableEq, Repr

/-- Options of an `instantiateTemplate` call. -/
structure InstOptions where
  templateId : String
  /-- the `variables` field of the source -/
  vars : VarCtx
  parentPath : Option String := none
deriving DecidableEq, Repr

/-- Modelled from the spec: the Template Store's `getTemplate(id)` returns the
template or fails with `TemplateNotFound`; the store content is `E.templates`. -/
def getTemplateE (E : Env) (id : String) : Option TaskTemplate :=
  (E.templates.find? (fun kv => kv.1 == id)).map (fun kv => kv.2)

/-- Modelled from the spec: the Task Store's `getTask(path)` returns the task
at that path or nothing. -/
def getTaskW (w : World) (p : String) : Option TaskInput :=
  w.tasks.find? (fun t => t.path == p)

/-- Modelled from the spec: the Task Store's `createTask(input)` creates the
given task (or fails, which `E.createFails` decides). -/
def createTaskW (E : Env) (w : World) (input : TaskInput) :
    Except TmplError World :=
  if E.createFails input then Except.error TmplError.taskCreationFailed
  else Except.ok { w with tasks := w.tasks ++ [input] }

/-- The variable-resolution step of `instantiateTemplate` (lines 146-152):
start from the supplied variables and inject the declared default for every
declared variable whose name is absent and which carries a default.  The
source's `for` loop over the declarations is rendered as recursion threading
the accumulated context. -/
def resolveVariables (supplied : VarCtx) : List VariableDecl → VarCtx
  | [] => supplied
  | v :: ds =>
    match v.default with
    | some d =>
      if hasKey supplied v.name then resolveVariables supplied ds
      else resolveVariables (supplied ++ [(v.name, d)]) ds
    | none => resolveVariables supplied ds

/-- Modelled from the spec: the Variable Interpolator's
`validateRequiredVariables(decls, ctx)` returns the list of required variable
names missing from the context. -/
def validateRequiredVariables (decls : List VariableDecl) (ctx : VarCtx) :
    List String :=
  (decls.filter (fun v => v.required && !(hasKey ctx v.name))).map
    (fun v => v.name)

/-- The interpolate-join-normalize pipeline applied to an already-interpolated
string, relative to an optional parent path. -/
def normWith (E : Env) (pp : Option String) (s : String) : String :=
  match pp with
  | some p => E.normalize (E.joinP p s)
  | none => E.normalize s

/-- The normalized path of a blueprint in `processTemplateTask`
(lines 185, 198-202): interpolate, join with the parent path, normalize. -/
def taskNormPath (E : Env) (task : TemplateTask) (vars : VarCtx)
    (pp : Option String) : String :=
  normWith E pp (E.ipStr vars task.path)

/-- The implicit parent path (lines 205-206): drop the final segment of the
normalized path; none when the path has a single segment. -/
def taskImplicitParent (E : Env) (task : TemplateTask) (vars : VarCtx)
    (pp : Option String) : Option String :=
  let parts := splitPath (taskNormPath E task vars pp)
  if parts.length > 1 then some (joinSegs parts.dropLast) else none

/-- The interpolated, normalized dependency paths (lines 191, 209-216). -/
def taskNormDeps (E : Env) (task : TemplateTask) (vars : VarCtx)
    (pp : Option String) : Option (List String) :=
  (task.dependencies.map (fun ds => ds.map (E.ipStr vars))).map
    (fun ds => ds.map (normWith E pp))

/-- The transformed metadata (lines 192-194, 219-221): interpolate the raw
metadata, then apply the Metadata Transformer. -/
def taskTransformedMeta (E : Env) (task : TemplateTask) (vars : VarCtx) :
    Option Meta :=
  (task.metadata.map (E.ipMeta vars)).map E.transformMeta

/-- The auto-generated milestone input created for a missing implicit parent
(lines 232-241). -/
def autoParentInput (E : Env) (task : TemplateTask) (vars : VarCtx)
    (pp : Option String) (par : String) : TaskInput :=
  let normalizedPath := taskNormPath E task vars pp
  let parts := splitPath normalizedPath
  { path := par
    name := parts.getD (parts.length - 2) ""
    type := TaskType.MILESTONE
    description := some ("Auto-generated parent task for " ++ normalizedPath)
    metadata := some { ref := none, autoGenerated := true, childPath := some normalizedPath } }

/-- The ensure-parent step (lines 227-243): if the blueprint has an implicit
parent path with no task there yet, create the auto-generated milestone. -/
def ensureParent (E : Env) (task : TemplateTask) (vars : VarCtx)
    (pp : Option String) (w : World) : Except TmplError World :=
  match taskImplicitParent E task vars pp with
  | some par =>
    if (getTaskW w par).isNone then
      createTaskW E w (autoParentInput E task vars pp par)
    else Except.ok w
  | none => Except.ok w

/-- The `createTask` input for the blueprint itself (lines 248-256 and
266-274), with the metadata to store passed in (cleaned or transformed). -/
def mainTaskInput (E : Env) (task : TemplateTask) (vars : VarCtx)
    (pp : Option String) (meta : Option Meta) : TaskInput :=
  { path := taskNormPath E task vars pp
    name := E.ipStr vars task.title
    type := if task.type == "TASK" then TaskType.TASK else TaskType.MILESTONE
    description := task.description.map (E.ipStr vars)
    metadata := meta
    dependencies := taskNormDeps E task vars pp
    parentPath := taskImplicitParent E task vars pp }

/-- `TemplateManager.processTemplateTask` (lines 178-276), parameterized by
the recursive entry point `inst` it invokes for nested templates.
Interpolate the blueprint's fields, normalize its path and dependency paths,
derive the implicit parent path, transform the metadata and detect a nested
`TemplateRef` (modelled from the spec as the metadata's `ref` field,
`extractTemplateRef` reading it and `removeTemplateRef` clearing it); ensure
the implicit parent exists (creating an auto-generated milestone otherwise);
finally create the task — with the ref stripped and a recursive instantiation
rooted at this task's own normalized path when a ref is present. -/
def processTemplateTask (E : Env)
    (inst : InstOptions → World → Except TmplError Unit × World)
    (task : TemplateTask) (vars : VarCtx) (pp : Option String) (w : World) :
    Except TmplError Unit × World :=
  match ensureParent E task vars pp w with
  | Except.error e => (Except.error e, w)
  | Except.ok w1 =>
    match (taskTransformedMeta E task vars).bind (fun m => m.ref) with
    | some r =>
      match createTaskW E w1 (mainTaskInput E task vars pp
          ((taskTransformedMeta E task vars).map (fun m => { m with ref := none }))) with
      | Except.error e => (Except.error e, w1)
      | Except.ok w2 =>
        inst { templateId := r.template, vars := r.vars,
               parentPath := some (taskNormPath E task vars pp) } w2
    | none =>
      match createTaskW E w1 (mainTaskInput E task vars pp
          (taskTransformedMeta E task vars)) with
      | Except.error e => (Except.error e, w1)
      | Except.ok w2 => (Except.ok (), w2)

/-- The sequential materialization loop of `instantiateTemplate`
(lines 166-169): process the sorted blueprints strictly in order, stopping at
the first failure. -/
def processList (E : Env)
    (inst : InstOptions → World → Except TmplError Unit × World) :
    List TemplateTask → VarCtx → Option String → World →
    Except TmplError Unit × World
  | [], _, _, w => (Except.ok (), w)
  | t :: ts, vars, pp, w =>
    match processTemplateTask E inst t vars pp w with
    | (Except.ok _, w1) => processList E inst ts vars pp w1
    | (Except.error e, w1) => (Except.error e, w1)

/-- The `try` block of `instantiateTemplate` (lines 143-169): template lookup,
variable resolution, required-variable validation, dependency ordering and the
sequential materialization loop, parameterized by the recursive entry point
`inst` used for nested templates. -/
def instantiateBody (E : Env)
    (inst : InstOptions → World → Except TmplError Unit × World)
    (opts : InstOptions) (w0 : World) : Except TmplError Unit × World :=
  match getTemplateE E opts.templateId with
  | none => (Except.error (TmplError.templateNotFound opts.templateId), w0)
  | some template =>
    let vars := resolveVariables opts.vars template.vars
    let missing := validateRequiredVariables template.vars vars
    if missing.isEmpty then
      let np : String → String := fun s => normWith E opts.parentPath (E.ipStr vars s)
      processList E inst (sortTasksFn np template.tasks) vars opts.parentPath w0
    else (Except.error (TmplError.missingVariables missing), w0)

/-- `TemplateManager.instantiateTemplate` (lines 136-173): reentrancy check,
insertion into the Reentrancy Set, the `try` block (`instantiateBody`), and
the guaranteed removal from the Reentrancy Set on every exit path (the
`finally`).  The fuel bounds only the nesting depth of recursive template
composition. -/
def instantiateTemplate (E : Env) :
    Nat → InstOptions → World → Except TmplError Unit × World
  | fuel, opts, w =>
    if w.processing.contains opts.templateId then
      (Except.error (TmplError.circularTemplateReference opts.templateId), w)
    else
      match fuel with
      | 0 => (Except.error TmplError.depthExceeded, w)
      | fuel + 1 =>
        let w0 : World := { w with processing := w.processing ++ [opts.templateId] }
        let body := instantiateBody E (instantiateTemplate E fuel) opts w0
        (body.1, { body.2 with processing := body.2.processing.erase opts.templateId })

/-! ### Variable-context lemmas -/

theorem hasKey_eq_true_iff (ctx : VarCtx) (n : String) :
    hasKey ctx n = true ↔ ∃ kv ∈ ctx, kv.1 = n := by
  unfold hasKey
  rw [List.any_eq_true]
  constructor
  · rintro ⟨kv, hkv, hbeq⟩
    exact ⟨kv, hkv, by simpa using hbeq⟩
  · rintro ⟨kv, hkv, he⟩
    exact ⟨kv, hkv, by simpa using he⟩

theorem lookupVar_of_not_hasKey (ctx : VarCtx) (n : String)
    (h : hasKey ctx n = false) : lookupVar ctx n = none := by
  unfold lookupVar
  have hf : ctx.find? (fun kv => kv.1 == n) = none := by
    rw [List.find?_eq_none]
    intro kv hkv hbeq
    have : hasKey ctx n = true := (hasKey_eq_true_iff ctx n).mpr ⟨kv, hkv, by simpa using hbeq⟩
    simp [this] at h
  rw [hf]
  rfl

theorem lookupVar_append_left (ctx ctx' : VarCtx) (n : String)
    (h : hasKey ctx n = true) : lookupVar (ctx ++ ctx') n = lookupVar ctx n := by
  unfold lookupVar
  rw [List.find?_append]
  have hsome : (ctx.find? (fun kv => kv.1 == n)).isSome := by
    rw [List.find?_isSome]
    unfold hasKey at h
    rw [List.any_eq_true] at h
    exact h
  obtain ⟨kv', hf⟩ := Option.isSome_iff_exists.mp hsome
  rw [hf]
  rfl

theorem hasKey_append (ctx ctx' : VarCtx) (n : String) :
    hasKey (ctx ++ ctx') n = (hasKey ctx n || hasKey ctx' n) := by
  unfold hasKey
  exact List.any_append

theorem hasKey_single (k : String) (d : Value) (n : String) :
    hasKey [(k, d)] n = (k == n) := by
  unfold hasKey
  simp

/-- Unfolding equation of `resolveVariables` on a cons cell. -/
theorem resolveVariables_cons (supplied : VarCtx) (v : VariableDecl)
    (ds : List VariableDecl) :
    resolveVariables supplied (v :: ds) =
      match v.default with
      | some d =>
        if hasKey supplied v.name then resolveVariables supplied ds
        else resolveVariables (supplied ++ [(v.name, d)]) ds
      | none => resolveVariables supplied ds := rfl

/-- Unfolding equation of `resolveVariables` for a declaration with a default. -/
theorem resolveVariables_cons_some (supplied : VarCtx) (v : VariableDecl)
    (ds : List VariableDecl) (d : Value) (hd : v.default = some d) :
    resolveVariables supplied (v :: ds) =
      if hasKey supplied v.name then resolveVariables supplied ds
      else resolveVariables (supplied ++ [(v.name, d)]) ds := by
  rw [resolveVariables_cons, hd]

/-- Unfolding equation of `resolveVariables` for a declaration without default. -/
theorem resolveVariables_cons_none (supplied : VarCtx) (v : VariableDecl)
    (ds : List VariableDecl) (hd : v.default = none) :
    resolveVariables supplied (v :: ds) = resolveVariables supplied ds := by
  rw [resolveVariables_cons, hd]

/-- `resolveVariables` never alters the binding of a name already present. -/
theorem resolveVariables_preserves (decls : List VariableDecl) :
    ∀ (supplied : VarCtx) (n : String), hasKey supplied n = true →
      lookupVar (resolveVariables supplied decls) n = lookupVar supplied n := by
  induction decls with
  | nil => intro supplied n _; rfl
  | cons v ds ih =>
    intro supplied n h
    match hd : v.default with
    | none => rw [resolveVariables_cons_none supplied v ds hd]; exact ih supplied n h
    | some d =>
      rw [resolveVariables_cons_some supplied v ds d hd]
      by_cases hk : hasKey supplied v.name
      · rw [if_pos hk]
        exact ih supplied n h
      · rw [if_neg hk]
        have h' : hasKey (supplied ++ [(v.name, d)]) n = true := by
          rw [hasKey_append, h]; rfl
        rw [ih (supplied ++ [(v.name, d)]) n h',
          lookupVar_append_left supplied [(v.name, d)] n h]

/-- `resolveVariables` leaves a name absent when it is not supplied and no
processed declaration carries a default for it. -/
theorem resolveVariables_absent (decls : List VariableDecl) :
    ∀ (supplied : VarCtx) (n : String), hasKey supplied n = false →
      (∀ v ∈ decls, v.name ≠ n ∨ v.default = none) →
      lookupVar (resolveVariables supplied decls) n = none := by
  induction decls with
  | nil =>
    intro supplied n h _
    exact lookupVar_of_not_hasKey supplied n h
  | cons v ds ih =>
    intro supplied n h hside
    match hd : v.default with
    | none =>
      rw [resolveVariables_cons_none supplied v ds hd]
      exact ih supplied n h (fun v' hv' => hside v' (List.mem_cons_of_mem _ hv'))
    | some d =>
      have hne : v.name ≠ n := by
        rcases hside v (List.mem_cons_self v ds) with hne | hnone
        · exact hne
        · rw [hd] at hnone; cases hnone
      rw [resolveVariables_cons_some supplied v ds d hd]
      by_cases hk : hasKey supplied v.name
      · rw [if_pos hk]
        exact ih supplied n h (fun v' hv' => hside v' (List.mem_cons_of_mem _ hv'))
      · rw [if_neg hk]
        have h' : hasKey (supplied ++ [(v.name, d)]) n = false := by
          rw [hasKey_append, h, hasKey_single]
          simp [hne]
        exact ih (supplied ++ [(v.name, d)]) n h'
          (fun v' hv' => hside v' (List.mem_cons_of_mem _ hv'))

/-- C6, part for a declared default: once injected, the default is returned. -/
theorem resolveVariables_default (decls : List VariableDecl) :
    ∀ (supplied : VarCtx),
      (decls.map (fun v => v.name)).Nodup →
      ∀ v ∈ decls, ∀ d, v.default = some d → hasKey supplied v.name = false →
        lookupVar (resolveVariables supplied decls) v.name = some d := by
  induction decls with
  | nil => intro _ _ v hv; cases hv
  | cons v0 ds ih =>
    intro supplied hnd v hv d hd hk
    have hnd' : (ds.map (fun v => v.name)).Nodup := (List.nodup_cons.mp hnd).2
    have hnotin : v0.name ∉ ds.map (fun v => v.name) := (List.nodup_cons.mp hnd).1
    rcases List.mem_cons.mp hv with rfl | hvds
    · -- the head declaration itself
      rw [resolveVariables_cons_some supplied v ds d hd, if_neg (by simp [hk])]
      have h1 : hasKey (supplied ++ [(v.name, d)]) v.name = true := by
        rw [hasKey_append, hasKey_single]
        simp
      rw [resolveVariables_preserves ds (supplied ++ [(v.name, d)]) v.name h1]
      unfold lookupVar
      rw [List.find?_append]
      have hf : supplied.find? (fun kv => kv.1 == v.name) = none := by
        rw [List.find?_eq_none]
        intro kv hkv hbeq
        have : hasKey supplied v.name = true :=
          (hasKey_eq_true_iff supplied v.name).mpr ⟨kv, hkv, by simpa using hbeq⟩
        simp [this] at hk
      rw [hf]
      simp [List.find?]
    · -- a later declaration
      have hne : v.name ≠ v0.name := by
        intro he
        exact hnotin (he ▸ List.mem_map_of_mem (fun v => v.name) hvds)
      match hd0 : v0.default with
      | none =>
        rw [resolveVariables_cons_none supplied v0 ds hd0]
        exact ih supplied hnd' v hvds d hd hk
      | some d0 =>
        rw [resolveVariables_cons_some supplied v0 ds d0 hd0]
        by_cases hk0 : hasKey supplied v0.name
        · rw [if_pos hk0]
          exact ih supplied hnd' v hvds d hd hk
        · rw [if_neg hk0]
          have hk' : hasKey (supplied ++ [(v0.name, d0)]) v.name = false := by
            rw [hasKey_append, hk, hasKey_single]
            simp [Ne.symm hne]
          exact ih (supplied ++ [(v0.name, d0)]) hnd' v hvds d hd hk'

/-- Claim C6. The resolved variable context maps each declared variable that is
absent from the supplied mapping yet carries a default to that default value;
maps each name present in the supplied mapping to the caller-supplied value
(caller precedence); and leaves a declared variable with neither a supplied
value nor a default absent. -/
theorem claim_resolveVariables_merge (supplied : VarCtx) (decls : List VariableDecl)
    (hnd : (decls.map (fun v => v.name)).Nodup) :
    (∀ v ∈ decls, ∀ d, v.default = some d → hasKey supplied v.name = false →
        lookupVar (resolveVariables supplied decls) v.name = some d) ∧
    (∀ n, hasKey supplied n = true →
        lookupVar (resolveVariables supplied decls) n = lookupVar supplied n) ∧
    (∀ v ∈ decls, v.default = none → hasKey supplied v.name = false →
        lookupVar (resolveVariables supplied decls) v.name = none) := by
  refine ⟨fun v hv d hd hk => resolveVariables_default decls supplied hnd v hv d hd hk,
    fun n h => resolveVariables_preserves decls supplied n h,
    fun v hv hd hk => resolveVariables_absent decls supplied v.name hk ?_⟩
  intro v' hv'
  by_cases he : v'.name = v.name
  · right
    have hvv : v' = v := List.inj_on_of_nodup_map hnd hv' hv he
    rw [hvv, hd]
  · exact Or.inl he

/-! ### Graph relations and traversal accounting -/

/-- The edge relation of the dependency graph: `edgeG g a b` when `b` is among
the recorded dependencies of `a`. -/
def edgeG (g : Graph) (a b : String) : Prop :=
  b ∈ depsOf g a

/-- Reachability along dependency edges. -/
def reachesG (g : Graph) : String → String → Prop :=
  Relation.ReflTransGen (edgeG g)

/-- Acyclicity of the dependency graph: no node reaches itself through at
least one edge. -/
def AcyclicG (g : Graph) : Prop :=
  ∀ a, ¬ Relation.TransGen (edgeG g) a a

/-- Number of graph keys not yet visited; the traversal can recurse into a
fresh node at most this many times. -/
def unvis (g : Graph) (visited : List String) : Nat :=
  ((gKeys g).filter (fun k => decide (k ∉ visited))).length

theorem contains_true_iff (l : List String) (a : String) :
    l.contains a = true ↔ a ∈ l := List.elem_iff

theorem depsOf_eq_nil_of_not_key (g : Graph) (p : String)
    (h : p ∉ gKeys g) : depsOf g p = [] := by
  unfold depsOf
  have hf : g.find? (fun kv => kv.1 == p) = none := by
    rw [List.find?_eq_none]
    intro kv hkv hbeq
    exact h (by
      unfold gKeys
      exact (beq_iff_eq.mp hbeq) ▸ List.mem_map_of_mem (fun kv => kv.1) hkv)
  rw [hf]

theorem edgeG_key (g : Graph) (a b : String) (h : edgeG g a b) : a ∈ gKeys g := by
  by_contra hna
  unfold edgeG at h
  rw [depsOf_eq_nil_of_not_key g a hna] at h
  cases h

theorem filter_length_mono {l : List String} {P Q : String → Bool}
    (h : ∀ x ∈ l, P x = true → Q x = true) :
    (l.filter P).length ≤ (l.filter Q).length := by
  induction l with
  | nil => exact Nat.le_refl 0
  | cons x xs ih =>
    have ih' := ih (fun y hy => h y (List.mem_cons_of_mem x hy))
    by_cases hp : P x = true
    · rw [List.filter_cons_of_pos hp, List.filter_cons_of_pos (h x (List.mem_cons_self x xs) hp)]
      exact Nat.succ_le_succ ih'
    · rw [List.filter_cons_of_neg (by simpa using hp)]
      by_cases hq : Q x = true
      · rw [List.filter_cons_of_pos hq]
        exact Nat.le_succ_of_le ih'
      · rw [List.filter_cons_of_neg (by simpa using hq)]
        exact ih'

theorem unvis_mono (g : Graph) {v v' : List String}
    (h : ∀ x ∈ v, x ∈ v') : unvis g v' ≤ unvis g v := by
  unfold unvis
  apply filter_length_mono
  intro x _ hx
  simp only [decide_eq_true_eq] at hx ⊢
  intro hmem
  exact hx (h x hmem)

theorem unvis_lt_of_mark (g : Graph) (p : String) (v : List String)
    (hk : p ∈ gKeys g) (hnv : p ∉ v) : unvis g (p :: v) < unvis g v := by
  unfold unvis
  have : ∀ l : List String, p ∈ l →
      (l.filter (fun k => decide (k ∉ p :: v))).length <
      (l.filter (fun k => decide (k ∉ v))).length := by
    intro l
    induction l with
    | nil => intro h; cases h
    | cons x xs ih =>
      intro hmem
      by_cases hxp : x = p
      · subst hxp
        rw [List.filter_cons_of_neg (by simp), List.filter_cons_of_pos (by simpa using hnv)]
        exact Nat.lt_succ_of_le (filter_length_mono (by
          intro y _ hy
          simp only [decide_eq_true_eq] at hy ⊢
          intro hmy
          exact hy (List.mem_cons_of_mem _ hmy)))
      · have hmem' : p ∈ xs := by
          rcases List.mem_cons.mp hmem with h | h
          · exact absurd h.symm hxp
          · exact h
        by_cases hxv : x ∈ v
        · rw [List.filter_cons_of_neg (by simp [hxv]),
            List.filter_cons_of_neg (by simp [hxv])]
          exact ih hmem'
        · rw [List.filter_cons_of_pos (by simp [hxp, hxv]), List.filter_cons_of_pos (by simpa using hxv)]
          exact Nat.succ_lt_succ (ih hmem')
  exact this (gKeys g) hk

theorem unvis_le_length (g : Graph) (v : List String) : unvis g v ≤ g.length := by
  unfold unvis
  calc ((gKeys g).filter _).length ≤ (gKeys g).length := List.length_filter_le _ _
    _ = g.length := by unfold gKeys; exact List.length_map g _

/-! ### Unfolding equations of the traversal -/

theorem visit_zero (g : Graph) (p : String) (st : VState) :
    visit g 0 p st = st := rfl

theorem visit_succ (g : Graph) (fuel : Nat) (p : String) (st : VState) :
    visit g (fuel + 1) p st =
      if st.1.contains p then st
      else
        let st1 : VState := (p :: st.1, st.2)
        let st2 := (depsOf g p).foldl (fun acc d => visit g fuel d acc) st1
        (st2.1, st2.2 ++ [p]) := rfl

/-! ### The relational summary of traversal steps -/

/-- What any number of traversal steps does to the state: the visited set
grows; the output grows only by appending previously-unvisited nodes; no node
becomes "visited but not output" that was not already so (the gray set never
grows); the output stays inside the visited set; and the output stays
duplicate-free. -/
structure Step (v s v' s' : List String) : Prop where
  mono : ∀ x, x ∈ v → x ∈ v'
  suffix : ∃ t, s' = s ++ t ∧ ∀ x ∈ t, x ∉ v
  gray : ∀ x, x ∈ v' → x ∉ s' → x ∈ v ∧ x ∉ s
  sub : (∀ x ∈ s, x ∈ v) → ∀ x ∈ s', x ∈ v'
  nodup : s.Nodup → (∀ x ∈ s, x ∈ v) → s'.Nodup

theorem Step.rfl (v s : List String) : Step v s v s where
  mono := fun _ h => h
  suffix := ⟨[], by simp, by simp⟩
  gray := fun x hv hs => ⟨hv, hs⟩
  sub := fun h x hx => h x hx
  nodup := fun hn _ => hn

theorem Step.trans {v s v' s' v'' s'' : List String}
    (h1 : Step v s v' s') (h2 : Step v' s' v'' s'') : Step v s v'' s'' where
  mono := fun x hx => h2.mono x (h1.mono x hx)
  suffix := by
    obtain ⟨t1, he1, hf1⟩ := h1.suffix
    obtain ⟨t2, he2, hf2⟩ := h2.suffix
    refine ⟨t1 ++ t2, by rw [he2, he1, List.append_assoc], ?_⟩
    intro x hx
    rcases List.mem_append.mp hx with hx | hx
    · exact hf1 x hx
    · intro hxv
      exact hf2 x hx (h1.mono x hxv)
  gray := fun x hv hs =>
    h1.gray x (h2.gray x hv hs).1 (h2.gray x hv hs).2
  sub := fun h x hx => h2.sub (h1.sub h) x hx
  nodup := fun hn h => h2.nodup (h1.nodup hn h) (h1.sub h)

/-- Summary of the fold of `visit` over a dependency list, given the summary
of a single `visit` at the same fuel. -/
theorem visitFold_basic (g : Graph) (fuel : Nat)
    (hbase : ∀ (p : String) (st : VState),
      Step st.1 st.2 (visit g fuel p st).1 (visit g fuel p st).2 ∧
      (∀ x, x ∈ (visit g fuel p st).1 → x ∈ st.1 ∨ reachesG g p x) ∧
      (unvis g st.1 < fuel → p ∈ (visit g fuel p st).1)) :
    ∀ (ds : List String) (st : VState),
      Step st.1 st.2 (ds.foldl (fun acc d => visit g fuel d acc) st).1
        (ds.foldl (fun acc d => visit g fuel d acc) st).2 ∧
      (∀ x, x ∈ (ds.foldl (fun acc d => visit g fuel d acc) st).1 →
        x ∈ st.1 ∨ ∃ d ∈ ds, reachesG g d x) ∧
      (unvis g st.1 < fuel →
        ∀ d ∈ ds, d ∈ (ds.foldl (fun acc d => visit g fuel d acc) st).1) := by
  intro ds
  induction ds with
  | nil =>
    intro st
    exact ⟨Step.rfl _ _, fun x hx => Or.inl hx,
      fun _ d hd => absurd hd (List.not_mem_nil d)⟩
  | cons d ds ih =>
    intro st
    rw [List.foldl_cons]
    obtain ⟨s1, r1, f1⟩ := hbase d st
    obtain ⟨s2, r2, f2⟩ := ih (visit g fuel d st)
    refine ⟨s1.trans s2, ?_, ?_⟩
    · intro x hx
      rcases r2 x hx with hx' | ⟨d', hd', hr⟩
      · rcases r1 x hx' with hx'' | hr
        · exact Or.inl hx''
        · exact Or.inr ⟨d, List.mem_cons_self d ds, hr⟩
      · exact Or.inr ⟨d', List.mem_cons_of_mem d hd', hr⟩
    · intro hf d' hd'
      have hf' : unvis g (visit g fuel d st).1 < fuel :=
        Nat.lt_of_le_of_lt (unvis_mono g s1.mono) hf
      rcases List.mem_cons.mp hd' with rfl | hd'
      · exact s2.mono d' (f1 hf)
      · exact f2 hf' d' hd'

/-- Basic summary of a single `visit` call at any fuel: it performs `Step`s,
every newly visited node is reachable from the argument, and with positive
fuel the argument itself ends up visited. -/
theorem visit_basic (g : Graph) :
    ∀ (fuel : Nat) (p : String) (st : VState),
      Step st.1 st.2 (visit g fuel p st).1 (visit g fuel p st).2 ∧
      (∀ x, x ∈ (visit g fuel p st).1 → x ∈ st.1 ∨ reachesG g p x) ∧
      (unvis g st.1 < fuel → p ∈ (visit g fuel p st).1) := by
  intro fuel
  induction fuel with
  | zero =>
    intro p st
    rw [visit_zero]
    exact ⟨Step.rfl _ _, fun x hx => Or.inl hx,
      fun h => absurd h (Nat.not_lt_zero _)⟩
  | succ f ih =>
    intro p st
    rw [visit_succ]
    by_cases hc : st.1.contains p = true
    · rw [if_pos hc]
      exact ⟨Step.rfl _ _, fun x hx => Or.inl hx,
        fun _ => (contains_true_iff _ _).mp hc⟩
    · rw [if_neg hc]
      dsimp only
      have hpv : p ∉ st.1 := by
        intro hm
        exact hc ((contains_true_iff _ _).mpr hm)
      obtain ⟨sF, rF, fF⟩ := visitFold_basic g f ih (depsOf g p) (p :: st.1, st.2)
      refine ⟨?_, ?_, ?_⟩
      · -- the Step summary
        refine ⟨?_, ?_, ?_, ?_, ?_⟩
        · intro x hx
          exact sF.mono x (List.mem_cons_of_mem p hx)
        · obtain ⟨t, he, hfr⟩ := sF.suffix
          refine ⟨t ++ [p], by rw [he]; simp, ?_⟩
          intro x hx
          rcases List.mem_append.mp hx with hx | hx
          · intro hxv
            exact hfr x hx (List.mem_cons_of_mem p hxv)
          · rw [List.mem_singleton.mp hx]
            exact hpv
        · intro x hx hs
          have hxp : x ≠ p := by
            intro he
            exact hs (by rw [he]; simp)
          have hs2 : x ∉ ((depsOf g p).foldl (fun acc d => visit g f d acc)
              (p :: st.1, st.2)).2 := by
            intro hm
            exact hs (List.mem_append.mpr (Or.inl hm))
          have := sF.gray x hx hs2
          rcases List.mem_cons.mp this.1 with he | hm
          · exact absurd he hxp
          · exact ⟨hm, this.2⟩
        · intro h x hx
          rcases List.mem_append.mp hx with hx | hx
          · exact sF.sub (fun y hy => List.mem_cons_of_mem p (h y hy)) x hx
          · rw [List.mem_singleton.mp hx]
            exact sF.mono p (List.mem_cons_self p st.1)
        · intro hn h
          have hn2 := sF.nodup hn (fun y hy => List.mem_cons_of_mem p (h y hy))
          obtain ⟨t, he, hfr⟩ := sF.suffix
          have hpn : p ∉ ((depsOf g p).foldl (fun acc d => visit g f d acc)
              (p :: st.1, st.2)).2 := by
            rw [he]
            intro hm
            rcases List.mem_append.mp hm with hm | hm
            · exact hpv (h p hm)
            · exact hfr p hm (List.mem_cons_self p st.1)
          rw [List.nodup_append]
          exact ⟨hn2, List.nodup_singleton p,
            fun a ha hb => hpn (List.mem_singleton.mp hb ▸ ha)⟩
      · -- reachability of newly visited nodes
        intro x hx
        rcases rF x hx with hx' | ⟨d, hd, hr⟩
        · rcases List.mem_cons.mp hx' with he | hm
          · exact Or.inr (he ▸ Relation.ReflTransGen.refl)
          · exact Or.inl hm
        · exact Or.inr (Relation.ReflTransGen.head hd hr)
      · -- the argument ends up visited
        intro _
        exact sF.mono p (List.mem_cons_self p st.1)

/-- Fold version of fuel-stability. -/
theorem visitFold_stable (g : Graph) (n₁ n₂ : Nat)
    (hstable : ∀ (p : String) (st : VState),
      unvis g st.1 < n₁ → unvis g st.1 < n₂ →
      visit g n₁ p st = visit g n₂ p st) :
    ∀ (ds : List String) (st : VState), unvis g st.1 < n₁ → unvis g st.1 < n₂ →
      ds.foldl (fun acc d => visit g n₁ d acc) st =
      ds.foldl (fun acc d => visit g n₂ d acc) st := by
  intro ds
  induction ds with
  | nil => intro st _ _; rfl
  | cons d ds ih =>
    intro st h1 h2
    rw [List.foldl_cons, List.foldl_cons, ← hstable d st h1 h2]
    have hle : unvis g (visit g n₁ d st).1 ≤ unvis g st.1 :=
      unvis_mono g (visit_basic g n₁ d st).1.mono
    exact ih (visit g n₁ d st) (Nat.lt_of_le_of_lt hle h1)
      (Nat.lt_of_le_of_lt hle h2)

/-- Claim C3, amended. A cycle in the task-level dependency graph does *not*
cause unbounded recursion: because a node is marked visited before its
dependencies are recursed into, each node is entered at most once, so the
traversal terminates on every input, cyclic or not.  Formally, the
fuel-indexed traversal stabilizes: any two fuel bounds exceeding the number
of unvisited graph keys produce identical results (no cycle error is raised;
the sorter silently returns an order, which for a cyclic graph cannot respect
every dependency). -/
theorem claim_visit_fuel_stable (g : Graph) :
    ∀ (f₁ f₂ : Nat) (p : String) (st : VState),
      unvis g st.1 < f₁ → unvis g st.1 < f₂ →
      visit g f₁ p st = visit g f₂ p st := by
  intro f₁
  induction f₁ with
  | zero => intro f₂ p st h1 _; exact absurd h1 (Nat.not_lt_zero _)
  | succ n₁ ih =>
    intro f₂ p st h1 h2
    cases f₂ with
    | zero => exact absurd h2 (Nat.not_lt_zero _)
    | succ n₂ =>
      rw [visit_succ, visit_succ]
      by_cases hc : st.1.contains p = true
      · rw [if_pos hc, if_pos hc]
      · rw [if_neg hc, if_neg hc]
        dsimp only
        by_cases hk : p ∈ gKeys g
        · have hpv : p ∉ st.1 := by
            intro hm
            exact hc ((contains_true_iff _ _).mpr hm)
          have hlt : unvis g (p :: st.1) < unvis g st.1 :=
            unvis_lt_of_mark g p st.1 hk hpv
          have h1' : unvis g (p :: st.1) < n₁ :=
            Nat.lt_of_lt_of_le hlt (Nat.lt_succ_iff.mp h1)
          have h2' : unvis g (p :: st.1) < n₂ :=
            Nat.lt_of_lt_of_le hlt (Nat.lt_succ_iff.mp h2)
          rw [visitFold_stable g n₁ n₂ (fun q st' ha hb => ih n₂ q st' ha hb)
            (depsOf g p) (p :: st.1, st.2) h1' h2']
        · rw [depsOf_eq_nil_of_not_key g p hk]
          rfl

/-- Witness for the amended C3 at a concrete two-node cyclic graph: fuels 3
and 100 agree. -/
theorem claim_visit_fuel_stable_witness :
    visit [("p", ["q"]), ("q", ["p"])] 3 "p" ([], []) =
    visit [("p", ["q"]), ("q", ["p"])] 100 "p" ([], []) :=
  claim_visit_fuel_stable [("p", ["q"]), ("q", ["p"])] 3 100 "p" ([], [])
    (by decide) (by decide)

/-- Claim C3, counterexample. At the concrete cyclic input `p ↔ q` the
topological-sort traversal terminates and silently returns both blueprints —
with `q` first even though `q` depends on `p`, so the order violates the
dependency — rather than recursing unboundedly. -/
theorem claim_cycle_terminates_counterexample :
    sortTasksFn id
      [{ path := "p", title := "A", type := "TASK", dependencies := some ["q"] },
       { path := "q", title := "B", type := "TASK", dependencies := some ["p"] }] =
      [{ path := "q", title := "B", type := "TASK", dependencies := some ["p"] },
       { path := "p", title := "A", type := "TASK", dependencies := some ["q"] }] := rfl

/-! ### The ordering invariant -/

/-- The ordering invariant maintained by the traversal: for every node `m`
already in the output, every dependency `d` of `m` is visited, and either
`d` already precedes `m` in the output (the sublist `[d, m]`), or `d` is
still gray (visited, not yet output) and reaches `m`. -/
def InvSt (g : Graph) (v s : List String) : Prop :=
  (∀ m ∈ s, ∀ d ∈ depsOf g m, d ∈ v) ∧
  (∀ m ∈ s, ∀ d ∈ depsOf g m,
    List.Sublist [d, m] s ∨ (d ∈ v ∧ d ∉ s ∧ reachesG g d m))

theorem InvSt.mono_v (g : Graph) {v v' s : List String}
    (h : InvSt g v s) (hm : ∀ x ∈ v, x ∈ v') : InvSt g v' s := by
  refine ⟨fun m hm' d hd => hm _ (h.1 m hm' d hd), fun m hm' d hd => ?_⟩
  rcases h.2 m hm' d hd with hs | ⟨h1, h2, h3⟩
  · exact Or.inl hs
  · exact Or.inr ⟨hm _ h1, h2, h3⟩

/-- Appending the current node to the output preserves the invariant, under
acyclicity.  `v` and `s` are the state at entry of the current node's visit,
`v₂, s₂` the state after its dependencies were traversed. -/
theorem push_inv (g : Graph) (hacyc : AcyclicG g) (p : String)
    (v s v₂ s₂ : List String)
    (hdeps : ∀ d ∈ depsOf g p, d ∈ v₂)
    (hstep : Step (p :: v) s v₂ s₂)
    (hgray : ∀ x ∈ v, x ∉ s → reachesG g x p)
    (hinv2 : InvSt g v₂ s₂) :
    InvSt g v₂ (s₂ ++ [p]) := by
  constructor
  · intro m hm d hd
    rcases List.mem_append.mp hm with hm | hm
    · exact hinv2.1 m hm d hd
    · rw [List.mem_singleton.mp hm] at hd
      exact hdeps d hd
  · intro m hm d hd
    rcases List.mem_append.mp hm with hm | hm
    · -- m was already in the output
      rcases hinv2.2 m hm d hd with hsb | ⟨hdv, hds, hr⟩
      · exact Or.inl (hsb.trans (List.sublist_append_left s₂ [p]))
      · by_cases hdp : d = p
        · exfalso
          exact hacyc m (Relation.TransGen.head' (hdp ▸ hd) (hdp ▸ hr))
        · refine Or.inr ⟨hdv, ?_, hr⟩
          intro hmem
          rcases List.mem_append.mp hmem with hmem | hmem
          · exact hds hmem
          · exact hdp (List.mem_singleton.mp hmem)
    · -- m is the node just pushed
      rw [List.mem_singleton.mp hm] at hd ⊢
      by_cases hd2 : d ∈ s₂
      · exact Or.inl (List.Sublist.append
          (List.singleton_sublist.mpr hd2) (List.Sublist.refl [p]))
      · have hdp : d ≠ p := by
          intro he
          exact hacyc p (Relation.TransGen.single (he ▸ hd))
        have hg := hstep.gray d (hdeps d hd) hd2
        have hdv : d ∈ v := by
          rcases List.mem_cons.mp hg.1 with he | hm'
          · exact absurd he hdp
          · exact hm'
        refine Or.inr ⟨hdeps d hd, ?_, hgray d hdv hg.2⟩
        intro hmem
        rcases List.mem_append.mp hmem with hmem | hmem
        · exact hd2 hmem
        · exact hdp (List.mem_singleton.mp hmem)

/-- Fold version of invariant preservation over a dependency list. -/
theorem visitFold_inv (g : Graph) (fuel : Nat)
    (hbase : ∀ (p : String) (v s : List String), unvis g v < fuel →
      (∀ x ∈ s, x ∈ v) → s.Nodup → InvSt g v s →
      (∀ x ∈ v, x ∉ s → reachesG g x p) →
      InvSt g (visit g fuel p (v, s)).1 (visit g fuel p (v, s)).2) :
    ∀ (ds : List String) (v s : List String),
      unvis g v < fuel → (∀ x ∈ s, x ∈ v) → s.Nodup → InvSt g v s →
      (∀ d ∈ ds, ∀ x ∈ v, x ∉ s → reachesG g x d) →
      InvSt g (ds.foldl (fun acc d => visit g fuel d acc) (v, s)).1
        (ds.foldl (fun acc d => visit g fuel d acc) (v, s)).2 := by
  intro ds
  induction ds with
  | nil => intro v s _ _ _ hinv _; exact hinv
  | cons d ds ih =>
    intro v s hf hsub hnd hinv hreach
    rw [List.foldl_cons]
    obtain ⟨sB, _, _⟩ := visit_basic g fuel d (v, s)
    have hstep := ih (visit g fuel d (v, s)).1 (visit g fuel d (v, s)).2
      (Nat.lt_of_le_of_lt (unvis_mono g sB.mono) hf)
      (sB.sub hsub) (sB.nodup hnd hsub)
      (hbase d v s hf hsub hnd hinv (hreach d (List.mem_cons_self d ds)))
      (fun d' hd' x hx hs =>
        hreach d' (List.mem_cons_of_mem d hd') x (sB.gray x hx hs).1
          (sB.gray x hx hs).2)
    exact hstep

/-- Invariant preservation by a single `visit` with sufficient fuel, under
acyclicity. -/
theorem visit_inv (g : Graph) (hacyc : AcyclicG g) :
    ∀ (fuel : Nat) (p : String) (v s : List String),
      unvis g v < fuel →
      (∀ x ∈ s, x ∈ v) → s.Nodup → InvSt g v s →
      (∀ x ∈ v, x ∉ s → reachesG g x p) →
      InvSt g (visit g fuel p (v, s)).1 (visit g fuel p (v, s)).2 := by
  intro fuel
  induction fuel with
  | zero => intro p v s hf; exact absurd hf (Nat.not_lt_zero _)
  | succ f ihf =>
    intro p v s hf hsub hnd hinv hgray
    rw [visit_succ]
    by_cases hc : v.contains p = true
    · rw [if_pos hc]
      exact hinv
    · rw [if_neg hc]
      dsimp only
      have hpv : p ∉ v := by
        intro hm
        exact hc ((contains_true_iff _ _).mpr hm)
      have hsub1 : ∀ x ∈ s, x ∈ p :: v := fun x hx => List.mem_cons_of_mem p (hsub x hx)
      have hinv1 : InvSt g (p :: v) s :=
        hinv.mono_v g (fun x hx => List.mem_cons_of_mem p hx)
      have hgray1 : ∀ d ∈ depsOf g p, ∀ x ∈ p :: v, x ∉ s → reachesG g x d := by
        intro d hd x hx hs
        rcases List.mem_cons.mp hx with he | hm
        · exact he ▸ Relation.ReflTransGen.single hd
        · exact Relation.ReflTransGen.tail (hgray x hm hs) hd
      obtain ⟨sF, rF, fF⟩ := visitFold_basic g f (visit_basic g f) (depsOf g p) (p :: v, s)
      by_cases hk : p ∈ gKeys g
      · have hf' : unvis g (p :: v) < f :=
          Nat.lt_of_lt_of_le (unvis_lt_of_mark g p v hk hpv) (Nat.lt_succ_iff.mp hf)
        have hinv2 := visitFold_inv g f ihf (depsOf g p) (p :: v) s hf' hsub1 hnd hinv1 hgray1
        exact push_inv g hacyc p v s _ _ (fF hf') sF hgray hinv2
      · rw [depsOf_eq_nil_of_not_key g p hk]
        simp only [List.foldl_nil]
        exact push_inv g hacyc p v s (p :: v) s
          (by rw [depsOf_eq_nil_of_not_key g p hk]; intro d hd; cases hd)
          (Step.rfl (p :: v) s) hgray hinv1

/-- Fold of the invariant over the key loop of `topoOrder`: starting from a
state with no gray nodes, the invariant and gray-emptiness are preserved. -/
theorem topoFold_inv (g : Graph) (hacyc : AcyclicG g) (fuel : Nat) :
    ∀ (ks : List String) (v s : List String),
      unvis g v < fuel → (∀ x ∈ s, x ∈ v) → s.Nodup → InvSt g v s →
      (∀ x ∈ v, x ∈ s) →
      InvSt g (ks.foldl (fun st k => visit g fuel k st) (v, s)).1
        (ks.foldl (fun st k => visit g fuel k st) (v, s)).2 ∧
      (∀ x ∈ (ks.foldl (fun st k => visit g fuel k st) (v, s)).1,
        x ∈ (ks.foldl (fun st k => visit g fuel k st) (v, s)).2) := by
  intro ks
  induction ks with
  | nil => intro v s _ _ _ hinv hgrayempty; exact ⟨hinv, hgrayempty⟩
  | cons k ks ih =>
    intro v s hf hsub hnd hinv hge
    rw [List.foldl_cons]
    obtain ⟨sB, _, _⟩ := visit_basic g fuel k (v, s)
    have hinv' := visit_inv g hacyc fuel k v s hf hsub hnd hinv
      (fun x hx hs => absurd (hge x hx) hs)
    have hge' : ∀ x ∈ (visit g fuel k (v, s)).1, x ∈ (visit g fuel k (v, s)).2 := by
      intro x hx
      by_contra hns
      exact absurd (hge x (sB.gray x hx hns).1) (sB.gray x hx hns).2
    exact ih (visit g fuel k (v, s)).1 (visit g fuel k (v, s)).2
      (Nat.lt_of_le_of_lt (unvis_mono g sB.mono) hf)
      (sB.sub hsub) (sB.nodup hnd hsub) hinv' hge'

/-- Every graph key ends up in the node order, and the node order is
duplicate-free — no acyclicity needed. -/
theorem topoOrder_keys (g : Graph) :
    (∀ k ∈ gKeys g, k ∈ topoOrder g) ∧ (topoOrder g).Nodup := by
  obtain ⟨sB, rB, fB⟩ := visitFold_basic g (g.length + 1) (visit_basic g _)
    (gKeys g) ([], [])
  have hfuel : unvis g ([] : List String) < g.length + 1 :=
    Nat.lt_succ_of_le (unvis_le_length g [])
  constructor
  · intro k hk
    have hv : k ∈ ((gKeys g).foldl
        (fun st k => visit g (g.length + 1) k st) ([], [])).1 := fB hfuel k hk
    by_contra hns
    exact absurd (sB.gray k hv hns).1 (List.not_mem_nil k)
  · exact sB.nodup List.nodup_nil (fun x hx => absurd hx (List.not_mem_nil x))

/-- With every dependency recorded as a key (as `sortTasks` guarantees), the
node order contains only graph keys. -/
theorem topoOrder_sub_keys (g : Graph)
    (hclosed : ∀ k d, d ∈ depsOf g k → d ∈ gKeys g) :
    ∀ x ∈ topoOrder g, x ∈ gKeys g := by
  obtain ⟨sB, rB, fB⟩ := visitFold_basic g (g.length + 1) (visit_basic g _)
    (gKeys g) ([], [])
  intro x hx
  have hv : x ∈ ((gKeys g).foldl
      (fun st k => visit g (g.length + 1) k st) ([], [])).1 :=
    sB.sub (fun y hy => absurd hy (List.not_mem_nil y)) x hx
  rcases rB x hv with hm | ⟨k, hk, hr⟩
  · exact absurd hm (List.not_mem_nil x)
  · induction hr with
    | refl => exact hk
    | tail _ hlast ih => exact hclosed _ _ hlast

/-- The dependency-respecting property of the node order: under acyclicity,
every node's recorded dependency precedes it. -/
theorem topoOrder_ordering (g : Graph) (hacyc : AcyclicG g) :
    ∀ m ∈ topoOrder g, ∀ d ∈ depsOf g m, List.Sublist [d, m] (topoOrder g) := by
  have hfuel : unvis g ([] : List String) < g.length + 1 :=
    Nat.lt_succ_of_le (unvis_le_length g [])
  have h := topoFold_inv g hacyc (g.length + 1) (gKeys g) [] [] hfuel
    (fun x hx => absurd hx (List.not_mem_nil x)) List.nodup_nil
    ⟨fun m hm => absurd hm (List.not_mem_nil m),
     fun m hm => absurd hm (List.not_mem_nil m)⟩
    (fun x hx => absurd hx (List.not_mem_nil x))
  intro m hm d hd
  rcases h.1.2 m hm d hd with hsb | ⟨hdv, hds, _⟩
  · exact hsb
  · exact absurd (h.2 d hdv) hds

/-! ### Association-list algebra for the graph builder -/

theorem any_key_iff {α : Type} (m : List (String × α)) (k : String) :
    m.any (fun kv => kv.1 == k) = true ↔ k ∈ m.map (fun kv => kv.1) := by
  rw [List.any_eq_true]
  constructor
  · rintro ⟨kv, hkv, hbeq⟩
    exact beq_iff_eq.mp hbeq ▸ List.mem_map_of_mem _ hkv
  · intro h
    obtain ⟨kv, hkv, he⟩ := List.mem_map.mp h
    exact ⟨kv, hkv, beq_iff_eq.mpr he⟩

theorem keys_setKey {α : Type} (m : List (String × α)) (k : String) (v : α) :
    (setKey m k v).map (fun kv => kv.1) =
      if m.any (fun kv => kv.1 == k) then m.map (fun kv => kv.1)
      else m.map (fun kv => kv.1) ++ [k] := by
  unfold setKey
  split
  · rw [List.map_map]
    apply List.map_congr_left
    intro kv _
    by_cases hb : (kv.1 == k) = true
    · simp only [Function.comp_apply, if_pos hb]
      exact (beq_iff_eq.mp hb).symm
    · simp only [Function.comp_apply, if_neg hb]
  · rw [List.map_append]
    rfl

theorem keys_ensureNode (g : Graph) (k : String) :
    gKeys (ensureNode g k) =
      if g.any (fun kv => kv.1 == k) then gKeys g else gKeys g ++ [k] := by
  unfold ensureNode gKeys
  split
  · rfl
  · rw [List.map_append]
    rfl

theorem keys_addEdge (g : Graph) (k d : String) :
    gKeys (addEdge g k d) = gKeys g := by
  unfold addEdge gKeys
  rw [List.map_map]
  apply List.map_congr_left
  intro kv _
  by_cases hb : (kv.1 == k) = true
  · simp only [Function.comp_apply, if_pos hb]
    exact (beq_iff_eq.mp hb).symm
  · simp only [Function.comp_apply, if_neg hb]

theorem keys_setKey_sub {α : Type} (m : List (String × α)) (k : String) (v : α) :
    ∀ x ∈ m.map (fun kv => kv.1), x ∈ (setKey m k v).map (fun kv => kv.1) := by
  intro x hx
  rw [keys_setKey]
  split
  · exact hx
  · exact List.mem_append.mpr (Or.inl hx)

theorem keys_setKey_self {α : Type} (m : List (String × α)) (k : String) (v : α) :
    k ∈ (setKey m k v).map (fun kv => kv.1) := by
  rw [keys_setKey]
  split
  · rename_i h
    exact (any_key_iff m k).mp h
  · exact List.mem_append.mpr (Or.inr (List.mem_singleton.mpr rfl))

theorem keys_ensureNode_sub (g : Graph) (k : String) :
    ∀ x ∈ gKeys g, x ∈ gKeys (ensureNode g k) := by
  intro x hx
  rw [keys_ensureNode]
  split
  · exact hx
  · exact List.mem_append.mpr (Or.inl hx)

theorem keys_ensureNode_self (g : Graph) (k : String) :
    k ∈ gKeys (ensureNode g k) := by
  rw [keys_ensureNode]
  split
  · rename_i h
    exact (any_key_iff g k).mp h
  · exact List.mem_append.mpr (Or.inr (List.mem_singleton.mpr rfl))

theorem keys_nodup_setKey {α : Type} (m : List (String × α)) (k : String)
    (v : α) (h : (m.map (fun kv => kv.1)).Nodup) :
    ((setKey m k v).map (fun kv => kv.1)).Nodup := by
  rw [keys_setKey]
  split
  · exact h
  · rename_i hany
    rw [List.nodup_append]
    refine ⟨h, List.nodup_singleton k, ?_⟩
    intro a ha hb
    rw [List.mem_singleton.mp hb] at ha
    exact hany ((any_key_iff m k).mpr ha)

theorem keys_nodup_ensureNode (g : Graph) (k : String)
    (h : (gKeys g).Nodup) : (gKeys (ensureNode g k)).Nodup := by
  rw [keys_ensureNode]
  split
  · exact h
  · rename_i hany
    rw [List.nodup_append]
    refine ⟨h, List.nodup_singleton k, ?_⟩
    intro a ha hb
    rw [List.mem_singleton.mp hb] at ha
    exact hany ((any_key_iff g k).mpr ha)

theorem find?_key_cons_self {α : Type} (kv : String × α) (m : List (String × α))
    (q : String) (h : (kv.1 == q) = true) :
    (kv :: m).find? (fun kv => kv.1 == q) = some kv := by
  simp only [List.find?_cons, h]

theorem find?_key_cons_other {α : Type} (kv : String × α) (m : List (String × α))
    (q : String) (h : (kv.1 == q) = false) :
    (kv :: m).find? (fun kv => kv.1 == q) = m.find? (fun kv => kv.1 == q) := by
  simp only [List.find?_cons, h]

theorem find?_key_setKey_self {α : Type} (m : List (String × α)) (k : String)
    (v : α) : (setKey m k v).find? (fun kv => kv.1 == k) = some (k, v) := by
  unfold setKey
  split
  · rename_i hany
    induction m with
    | nil => cases hany
    | cons kv m ih =>
      by_cases hb : (kv.1 == k) = true
      · rw [List.map_cons, if_pos hb]
        exact find?_key_cons_self (k, v) _ k (by simp)
      · have hany2 : m.any (fun kv => kv.1 == k) = true := by
          rw [List.any_cons] at hany
          rcases Bool.or_eq_true_iff.mp hany with h | h
          · exact absurd h hb
          · exact h
        rw [List.map_cons, if_neg hb,
          find?_key_cons_other kv _ k (by simpa using hb)]
        exact ih hany2
  · rename_i hany
    rw [List.find?_append]
    have hnone : m.find? (fun kv => kv.1 == k) = none := by
      rw [List.find?_eq_none]
      intro kv hkv hbeq
      exact hany (List.any_eq_true.mpr ⟨kv, hkv, hbeq⟩)
    rw [hnone, find?_key_cons_self (k, v) [] k (by simp)]
    rfl

theorem find?_key_setKey_other {α : Type} (m : List (String × α)) (k q : String)
    (v : α) (h : ¬ q = k) :
    (setKey m k v).find? (fun kv => kv.1 == q) = m.find? (fun kv => kv.1 == q) := by
  unfold setKey
  split
  · rename_i hany
    clear hany
    induction m with
    | nil => rfl
    | cons kv m ih =>
      by_cases hb : (kv.1 == k) = true
      · have hqo : (kv.1 == q) = false := by
          rw [beq_iff_eq.mp hb]
          simp only [beq_eq_false_iff_ne, ne_eq]
          intro he
          exact h he.symm
        rw [List.map_cons, if_pos hb,
          find?_key_cons_other (k, v) _ q
            (by simp only [beq_eq_false_iff_ne, ne_eq]; intro he; exact h he.symm),
          find?_key_cons_other kv _ q hqo]
        exact ih
      · rw [List.map_cons, if_neg hb]
        by_cases hq : (kv.1 == q) = true
        · rw [find?_key_cons_self kv _ q hq, find?_key_cons_self kv _ q hq]
        · rw [find?_key_cons_other kv _ q (by simpa using hq),
            find?_key_cons_other kv _ q (by simpa using hq)]
          exact ih
  · rw [List.find?_append]
    have h2 : ([(k, v)].find? (fun kv => kv.1 == q)) = none := by
      rw [find?_key_cons_other (k, v) [] q
        (by simp only [beq_eq_false_iff_ne, ne_eq]; intro he; exact h he.symm)]
      rfl
    rw [h2]
    cases m.find? (fun kv => kv.1 == q) <;> rfl

theorem depsOf_setKey_self (g : Graph) (k : String) (v : List String) :
    depsOf (setKey g k v) k = v := by
  unfold depsOf
  rw [find?_key_setKey_self]

theorem depsOf_setKey_other (g : Graph) (k q : String) (v : List String)
    (h : ¬ q = k) : depsOf (setKey g k v) q = depsOf g q := by
  unfold depsOf
  rw [find?_key_setKey_other g k q v h]

theorem depsOf_ensureNode (g : Graph) (k q : String) :
    depsOf (ensureNode g k) q = depsOf g q := by
  unfold ensureNode
  split
  · rfl
  · rename_i hany
    unfold depsOf
    rw [List.find?_append]
    cases hf : g.find? (fun kv => kv.1 == q) with
    | some kv => rfl
    | none =>
      by_cases hq : (k == q) = true
      · rw [find?_key_cons_self (k, ([] : List String)) [] q hq]
        rfl
      · rw [find?_key_cons_other (k, ([] : List String)) [] q (by simpa using hq)]
        rfl

theorem addToSet_sub (s : List String) (x : String) :
    ∀ y ∈ s, y ∈ addToSet s x := by
  unfold addToSet
  intro y hy
  split
  · exact hy
  · exact List.mem_append.mpr (Or.inl hy)

theorem addToSet_self (s : List String) (x : String) : x ∈ addToSet s x := by
  unfold addToSet
  split
  · rename_i h
    exact (contains_true_iff s x).mp h
  · exact List.mem_append.mpr (Or.inr (List.mem_singleton.mpr rfl))

theorem addToSet_members (s : List String) (x y : String)
    (h : y ∈ addToSet s x) : y ∈ s ∨ y = x := by
  unfold addToSet at h
  split at h
  · exact Or.inl h
  · rcases List.mem_append.mp h with h | h
    · exact Or.inl h
    · exact Or.inr (List.mem_singleton.mp h)

theorem depsOf_addEdge_self (g : Graph) (k d : String) (hk : k ∈ gKeys g) :
    depsOf (addEdge g k d) k = addToSet (depsOf g k) d := by
  unfold addEdge depsOf
  induction g with
  | nil => cases hk
  | cons kv g ih =>
    by_cases hb : (kv.1 == k) = true
    · rw [List.map_cons, if_pos hb,
        find?_key_cons_self (k, addToSet kv.2 d) _ k (by simp),
        find?_key_cons_self kv _ k hb]
    · have hk2 : k ∈ gKeys g := by
        unfold gKeys at hk
        rcases List.mem_map.mp hk with ⟨kv2, hkv2, he⟩
        rcases List.mem_cons.mp hkv2 with he2 | hm
        · exact absurd (beq_iff_eq.mpr (he2 ▸ he)) hb
        · exact he ▸ List.mem_map_of_mem _ hm
      rw [List.map_cons, if_neg hb, find?_key_cons_other kv _ k (by simpa using hb),
        find?_key_cons_other kv _ k (by simpa using hb)]
      exact ih hk2

theorem depsOf_addEdge_other (g : Graph) (k d q : String) (h : ¬ q = k) :
    depsOf (addEdge g k d) q = depsOf g q := by
  unfold addEdge depsOf
  induction g with
  | nil => rfl
  | cons kv g ih =>
    by_cases hb : (kv.1 == k) = true
    · have hqo : (kv.1 == q) = false := by
        rw [beq_iff_eq.mp hb]
        simp only [beq_eq_false_iff_ne, ne_eq]
        intro he
        exact h he.symm
      rw [List.map_cons, if_pos hb,
        find?_key_cons_other (k, addToSet kv.2 d) _ q
          (by simp only [beq_eq_false_iff_ne, ne_eq]; intro he; exact h he.symm),
        find?_key_cons_other kv _ q hqo]
      exact ih
    · rw [List.map_cons, if_neg hb]
      by_cases hq : (kv.1 == q) = true
      · rw [find?_key_cons_self kv _ q hq, find?_key_cons_self kv _ q hq]
      · rw [find?_key_cons_other kv _ q (by simpa using hq),
          find?_key_cons_other kv _ q (by simpa using hq)]
        exact ih

/-! ### Structure of the built graph -/

/-- Well-formedness of the graphs built by `sortTasks`: keys are unique and
every recorded dependency is itself a key. -/
def GoodGraph (g : Graph) : Prop :=
  (gKeys g).Nodup ∧ ∀ k d, d ∈ depsOf g k → d ∈ gKeys g

/-- The edge-adding step used for both explicit dependencies and the implicit
parent: ensure the target node exists, then record the edge from `p`. -/
def edgeStep (g : Graph) (p nd : String) : Graph :=
  addEdge (ensureNode g nd) p nd

/-- The fold adding all explicit dependency edges of one blueprint. -/
def depFold (np : String → String) (p : String) (ds : List String)
    (g : Graph) : Graph :=
  ds.foldl (fun g dep => edgeStep g p (np dep)) g

/-- The conditional implicit-parent edge of one blueprint. -/
def parentStep (p : String) (g : Graph) : Graph :=
  if (splitPath p).length > 1 then
    edgeStep g p (joinSegs (splitPath p).dropLast)
  else g

/-- `addTaskToGraph` decomposed into its named pieces. -/
theorem addTaskToGraph_eq (np : String → String) (st : TaskMap × Graph)
    (t : TemplateTask) :
    addTaskToGraph np st t =
      (setKey st.1 (np t.path) t,
        parentStep (np t.path)
          (depFold np (np t.path) (t.dependencies.getD [])
            (setKey st.2 (np t.path) []))) := rfl

theorem edgeStep_keys_sub (g : Graph) (p nd : String) :
    ∀ x ∈ gKeys g, x ∈ gKeys (edgeStep g p nd) := by
  intro x hx
  unfold edgeStep
  rw [keys_addEdge]
  exact keys_ensureNode_sub g nd x hx

theorem edgeStep_keys_nd (g : Graph) (p nd : String) :
    nd ∈ gKeys (edgeStep g p nd) := by
  unfold edgeStep
  rw [keys_addEdge]
  exact keys_ensureNode_self g nd

theorem edgeStep_keys_nodup (g : Graph) (p nd : String)
    (h : (gKeys g).Nodup) : (gKeys (edgeStep g p nd)).Nodup := by
  unfold edgeStep
  rw [keys_addEdge]
  exact keys_nodup_ensureNode g nd h

theorem edgeStep_deps_self (g : Graph) (p nd : String) (hp : p ∈ gKeys g) :
    depsOf (edgeStep g p nd) p = addToSet (depsOf g p) nd := by
  unfold edgeStep
  rw [depsOf_addEdge_self _ p nd (keys_ensureNode_sub g nd p hp),
    depsOf_ensureNode]

theorem edgeStep_deps_other (g : Graph) (p nd q : String) (hq : ¬ q = p) :
    depsOf (edgeStep g p nd) q = depsOf g q := by
  unfold edgeStep
  rw [depsOf_addEdge_other _ p nd q hq, depsOf_ensureNode]

theorem edgeStep_good (g : Graph) (p nd : String) (hp : p ∈ gKeys g)
    (hg : GoodGraph g) : GoodGraph (edgeStep g p nd) := by
  refine ⟨edgeStep_keys_nodup g p nd hg.1, ?_⟩
  intro k d hd
  by_cases hk : k = p
  · rw [hk, edgeStep_deps_self g p nd hp] at hd
    rcases addToSet_members _ _ _ hd with hd | hd
    · exact edgeStep_keys_sub g p nd d (hg.2 p d hd)
    · exact hd ▸ edgeStep_keys_nd g p nd
  · rw [edgeStep_deps_other g p nd k hk] at hd
    exact edgeStep_keys_sub g p nd d (hg.2 k d hd)

theorem depFold_keys_sub (np : String → String) (p : String) :
    ∀ (ds : List String) (g : Graph),
      ∀ x ∈ gKeys g, x ∈ gKeys (depFold np p ds g) := by
  intro ds
  induction ds with
  | nil => intro g x hx; exact hx
  | cons d ds ih =>
    intro g x hx
    exact ih (edgeStep g p (np d)) x (edgeStep_keys_sub g p (np d) x hx)

theorem depFold_deps_other (np : String → String) (p q : String)
    (hq : ¬ q = p) :
    ∀ (ds : List String) (g : Graph),
      depsOf (depFold np p ds g) q = depsOf g q := by
  intro ds
  induction ds with
  | nil => intro g; rfl
  | cons d ds ih =>
    intro g
    show depsOf (depFold np p ds (edgeStep g p (np d))) q = depsOf g q
    rw [ih (edgeStep g p (np d)), edgeStep_deps_other g p (np d) q hq]

theorem depFold_deps_self_sub (np : String → String) (p : String) :
    ∀ (ds : List String) (g : Graph), p ∈ gKeys g →
      ∀ x ∈ depsOf g p, x ∈ depsOf (depFold np p ds g) p := by
  intro ds
  induction ds with
  | nil => intro g _ x hx; exact hx
  | cons d ds ih =>
    intro g hp x hx
    show x ∈ depsOf (depFold np p ds (edgeStep g p (np d))) p
    apply ih (edgeStep g p (np d)) (edgeStep_keys_sub g p (np d) p hp)
    rw [edgeStep_deps_self g p (np d) hp]
    exact addToSet_sub _ _ x hx

theorem depFold_deps_mem (np : String → String) (p : String) :
    ∀ (ds : List String) (g : Graph), p ∈ gKeys g →
      ∀ d ∈ ds, np d ∈ depsOf (depFold np p ds g) p := by
  intro ds
  induction ds with
  | nil => intro g _ d hd; cases hd
  | cons d0 ds ih =>
    intro g hp d hd
    rcases List.mem_cons.mp hd with rfl | hd
    · show np d ∈ depsOf (depFold np p ds (edgeStep g p (np d))) p
      apply depFold_deps_self_sub np p ds (edgeStep g p (np d))
        (edgeStep_keys_sub g p (np d) p hp)
      rw [edgeStep_deps_self g p (np d) hp]
      exact addToSet_self _ _
    · exact ih (edgeStep g p (np d0)) (edgeStep_keys_sub g p (np d0) p hp) d hd

theorem depFold_good (np : String → String) (p : String) :
    ∀ (ds : List String) (g : Graph), p ∈ gKeys g → GoodGraph g →
      GoodGraph (depFold np p ds g) := by
  intro ds
  induction ds with
  | nil => intro g _ hg; exact hg
  | cons d ds ih =>
    intro g hp hg
    exact ih (edgeStep g p (np d)) (edgeStep_keys_sub g p (np d) p hp)
      (edgeStep_good g p (np d) hp hg)

theorem parentStep_keys_sub (p : String) (g : Graph) :
    ∀ x ∈ gKeys g, x ∈ gKeys (parentStep p g) := by
  intro x hx
  unfold parentStep
  split
  · exact edgeStep_keys_sub g p _ x hx
  · exact hx

theorem parentStep_deps_other (p q : String) (hq : ¬ q = p) (g : Graph) :
    depsOf (parentStep p g) q = depsOf g q := by
  unfold parentStep
  split
  · exact edgeStep_deps_other g p _ q hq
  · rfl

theorem parentStep_deps_self_sub (p : String) (g : Graph) (hp : p ∈ gKeys g) :
    ∀ x ∈ depsOf g p, x ∈ depsOf (parentStep p g) p := by
  intro x hx
  unfold parentStep
  split
  · rw [edgeStep_deps_self g p _ hp]
    exact addToSet_sub _ _ x hx
  · exact hx

theorem parentStep_parent_mem (p : String) (g : Graph) (hp : p ∈ gKeys g)
    (hlen : (splitPath p).length > 1) :
    joinSegs (splitPath p).dropLast ∈ depsOf (parentStep p g) p := by
  unfold parentStep
  rw [if_pos hlen, edgeStep_deps_self g p _ hp]
  exact addToSet_self _ _

theorem parentStep_good (p : String) (g : Graph) (hp : p ∈ gKeys g)
    (hg : GoodGraph g) : GoodGraph (parentStep p g) := by
  unfold parentStep
  split
  · exact edgeStep_good g p _ hp hg
  · exact hg

/-- Keys survive an `addTaskToGraph` step. -/
theorem addTask_keys_sub (np : String → String) (st : TaskMap × Graph)
    (t : TemplateTask) :
    ∀ x ∈ gKeys st.2, x ∈ gKeys (addTaskToGraph np st t).2 := by
  intro x hx
  rw [addTaskToGraph_eq]
  exact parentStep_keys_sub _ _ x
    (depFold_keys_sub np _ _ _ x (keys_setKey_sub st.2 (np t.path) [] x hx))

/-- The blueprint's own node is a key after its step. -/
theorem addTask_keys_self (np : String → String) (st : TaskMap × Graph)
    (t : TemplateTask) :
    np t.path ∈ gKeys (addTaskToGraph np st t).2 := by
  rw [addTaskToGraph_eq]
  exact parentStep_keys_sub _ _ _
    (depFold_keys_sub np _ _ _ _ (keys_setKey_self st.2 (np t.path) []))

/-- Dependency sets of other nodes survive an `addTaskToGraph` step. -/
theorem addTask_deps_other (np : String → String) (st : TaskMap × Graph)
    (t : TemplateTask) (q : String) (hq : ¬ q = np t.path) :
    depsOf (addTaskToGraph np st t).2 q = depsOf st.2 q := by
  rw [addTaskToGraph_eq]
  show depsOf (parentStep (np t.path) _) q = depsOf st.2 q
  rw [parentStep_deps_other _ q hq, depFold_deps_other np _ q hq,
    depsOf_setKey_other st.2 (np t.path) q [] hq]

/-- After a blueprint's own step, its node's dependency set contains every
normalized explicit dependency and — when the path has more than one
segment — the derived parent path. -/
theorem addTask_deps_self (np : String → String) (st : TaskMap × Graph)
    (t : TemplateTask) :
    (∀ dep ∈ t.dependencies.getD [],
      np dep ∈ depsOf (addTaskToGraph np st t).2 (np t.path)) ∧
    ((splitPath (np t.path)).length > 1 →
      joinSegs (splitPath (np t.path)).dropLast ∈
        depsOf (addTaskToGraph np st t).2 (np t.path)) := by
  rw [addTaskToGraph_eq]
  have hp0 : np t.path ∈ gKeys (setKey st.2 (np t.path) []) :=
    keys_setKey_self st.2 (np t.path) []
  have hp1 : np t.path ∈ gKeys (depFold np (np t.path)
      (t.dependencies.getD []) (setKey st.2 (np t.path) [])) :=
    depFold_keys_sub np _ _ _ _ hp0
  constructor
  · intro dep hdep
    exact parentStep_deps_self_sub _ _ hp1 _
      (depFold_deps_mem np _ _ _ hp0 dep hdep)
  · intro hlen
    exact parentStep_parent_mem _ _ hp1 hlen

/-- Well-formedness survives an `addTaskToGraph` step. -/
theorem addTask_good (np : String → String) (st : TaskMap × Graph)
    (t : TemplateTask) (hg : GoodGraph st.2) :
    GoodGraph (addTaskToGraph np st t).2 := by
  rw [addTaskToGraph_eq]
  have hg0 : GoodGraph (setKey st.2 (np t.path) []) := by
    refine ⟨keys_nodup_setKey st.2 (np t.path) [] hg.1, ?_⟩
    intro k d hd
    by_cases hk : k = np t.path
    · rw [hk, depsOf_setKey_self] at hd
      cases hd
    · rw [depsOf_setKey_other st.2 (np t.path) k [] hk] at hd
      exact keys_setKey_sub st.2 (np t.path) [] d (hg.2 k d hd)
  have hp0 : np t.path ∈ gKeys (setKey st.2 (np t.path) []) :=
    keys_setKey_self st.2 (np t.path) []
  exact parentStep_good _ _ (depFold_keys_sub np _ _ _ _ hp0)
    (depFold_good np _ _ _ hp0 hg0)

/-- The task map after a step. -/
theorem addTask_map (np : String → String) (st : TaskMap × Graph)
    (t : TemplateTask) :
    (addTaskToGraph np st t).1 = setKey st.1 (np t.path) t := rfl

theorem depFold_keys_mem (np : String → String) (p : String) :
    ∀ (ds : List String) (g : Graph), ∀ d ∈ ds,
      np d ∈ gKeys (depFold np p ds g) := by
  intro ds
  induction ds with
  | nil => intro g d hd; cases hd
  | cons d0 ds ih =>
    intro g d hd
    rcases List.mem_cons.mp hd with rfl | hd
    · exact depFold_keys_sub np p ds (edgeStep g p (np d)) _
        (edgeStep_keys_nd g p (np d))
    · exact ih (edgeStep g p (np d0)) d hd

theorem addTask_dep_keys (np : String → String) (st : TaskMap × Graph)
    (t : TemplateTask) :
    ∀ dep ∈ t.dependencies.getD [],
      np dep ∈ gKeys (addTaskToGraph np st t).2 := by
  intro dep hdep
  rw [addTaskToGraph_eq]
  exact parentStep_keys_sub _ _ _ (depFold_keys_mem np _ _ _ dep hdep)

/-! ### Fold-level properties of the graph builder -/

theorem buildFold_keys_sub (np : String → String) :
    ∀ (ts : List TemplateTask) (st : TaskMap × Graph),
      ∀ x ∈ gKeys st.2, x ∈ gKeys (ts.foldl (addTaskToGraph np) st).2 := by
  intro ts
  induction ts with
  | nil => intro st x hx; exact hx
  | cons t ts ih =>
    intro st x hx
    exact ih (addTaskToGraph np st t) x (addTask_keys_sub np st t x hx)

theorem buildFold_deps_other (np : String → String) (q : String) :
    ∀ (ts : List TemplateTask) (st : TaskMap × Graph),
      (∀ t ∈ ts, ¬ q = np t.path) →
      depsOf (ts.foldl (addTaskToGraph np) st).2 q = depsOf st.2 q := by
  intro ts
  induction ts with
  | nil => intro st _; rfl
  | cons t ts ih =>
    intro st hq
    show depsOf (ts.foldl (addTaskToGraph np) (addTaskToGraph np st t)).2 q = _
    rw [ih (addTaskToGraph np st t)
        (fun t' ht' => hq t' (List.mem_cons_of_mem t ht')),
      addTask_deps_other np st t q (hq t (List.mem_cons_self t ts))]

theorem buildFold_good (np : String → String) :
    ∀ (ts : List TemplateTask) (st : TaskMap × Graph),
      GoodGraph st.2 → GoodGraph (ts.foldl (addTaskToGraph np) st).2 := by
  intro ts
  induction ts with
  | nil => intro st hg; exact hg
  | cons t ts ih =>
    intro st hg
    exact ih (addTaskToGraph np st t) (addTask_good np st t hg)

/-- The graph built by `sortTasks` is well-formed: unique keys, and every
recorded dependency is a key. -/
theorem buildGraph_good (np : String → String) (tasks : List TemplateTask) :
    GoodGraph (buildGraph np tasks).2 := by
  apply buildFold_good np tasks ([], [])
  exact ⟨List.nodup_nil, fun k d hd => by
    unfold depsOf at hd
    cases hd⟩

theorem buildFold_edges (np : String → String) :
    ∀ (ts : List TemplateTask) (st : TaskMap × Graph),
      (ts.map (fun t => np t.path)).Nodup →
      ∀ t ∈ ts,
        np t.path ∈ gKeys (ts.foldl (addTaskToGraph np) st).2 ∧
        (∀ dep ∈ t.dependencies.getD [],
          np dep ∈ depsOf (ts.foldl (addTaskToGraph np) st).2 (np t.path)) ∧
        ((splitPath (np t.path)).length > 1 →
          joinSegs (splitPath (np t.path)).dropLast ∈
            depsOf (ts.foldl (addTaskToGraph np) st).2 (np t.path)) := by
  intro ts
  induction ts with
  | nil => intro st _ t ht; cases ht
  | cons t0 ts ih =>
    intro st hdis t ht
    have hdis' : (ts.map (fun t => np t.path)).Nodup := (List.nodup_cons.mp hdis).2
    have hnotin : np t0.path ∉ ts.map (fun t => np t.path) := (List.nodup_cons.mp hdis).1
    rcases List.mem_cons.mp ht with rfl | ht
    · have hother : ∀ t' ∈ ts, ¬ np t.path = np t'.path := by
        intro t' ht' he
        exact hnotin (he ▸ List.mem_map_of_mem (fun t => np t.path) ht')
      have hdeq : depsOf (ts.foldl (addTaskToGraph np) (addTaskToGraph np st t)).2
          (np t.path) = depsOf (addTaskToGraph np st t).2 (np t.path) :=
        buildFold_deps_other np (np t.path) ts (addTaskToGraph np st t) hother
      refine ⟨?_, ?_, ?_⟩
      · exact buildFold_keys_sub np ts (addTaskToGraph np st t) _
          (addTask_keys_self np st t)
      · intro dep hdep
        show np dep ∈ depsOf
          (ts.foldl (addTaskToGraph np) (addTaskToGraph np st t)).2 (np t.path)
        rw [hdeq]
        exact (addTask_deps_self np st t).1 dep hdep
      · intro hlen
        show joinSegs (splitPath (np t.path)).dropLast ∈ depsOf
          (ts.foldl (addTaskToGraph np) (addTaskToGraph np st t)).2 (np t.path)
        rw [hdeq]
        exact (addTask_deps_self np st t).2 hlen
    · exact ih (addTaskToGraph np st t0) hdis' t ht

theorem buildFold_dep_keys (np : String → String) :
    ∀ (ts : List TemplateTask) (st : TaskMap × Graph),
      ∀ t ∈ ts, ∀ dep ∈ t.dependencies.getD [],
        np dep ∈ gKeys (ts.foldl (addTaskToGraph np) st).2 := by
  intro ts
  induction ts with
  | nil => intro st t ht; cases ht
  | cons t0 ts ih =>
    intro st t ht dep hdep
    rcases List.mem_cons.mp ht with rfl | ht
    · exact buildFold_keys_sub np ts (addTaskToGraph np st t) _
        (addTask_dep_keys np st t dep hdep)
    · exact ih (addTaskToGraph np st t0) t ht dep hdep

/-! ### The task map -/

theorem lookupTask_setKey_self (m : TaskMap) (k : String) (t : TemplateTask) :
    lookupTask (setKey m k t) k = some t := by
  unfold lookupTask
  rw [find?_key_setKey_self]
  rfl

theorem lookupTask_setKey_other (m : TaskMap) (k q : String) (t : TemplateTask)
    (h : ¬ q = k) : lookupTask (setKey m k t) q = lookupTask m q := by
  unfold lookupTask
  rw [find?_key_setKey_other m k q t h]

/-- The task map records, for each normalized path, the *last* blueprint in
declaration order whose path normalizes to it. -/
theorem buildFold_lookup (np : String → String) :
    ∀ (ts : List TemplateTask) (st : TaskMap × Graph) (p : String),
      lookupTask (ts.foldl (addTaskToGraph np) st).1 p =
        (ts.reverse.find? (fun t => np t.path == p)).or (lookupTask st.1 p) := by
  intro ts
  induction ts with
  | nil => intro st p; rfl
  | cons t0 ts ih =>
    intro st p
    show lookupTask (ts.foldl (addTaskToGraph np) (addTaskToGraph np st t0)).1 p = _
    rw [ih (addTaskToGraph np st t0) p, List.reverse_cons, List.find?_append,
      Option.or_assoc]
    congr 1
    rw [addTask_map]
    by_cases hp : p = np t0.path
    · rw [hp, lookupTask_setKey_self]
      have : ([t0].find? (fun t => np t.path == p)) = some t0 := by
        rw [List.find?_cons_of_pos _ (by rw [hp]; exact beq_self_eq_true _)]
      rw [hp] at this
      rw [this]
      rfl
    · rw [lookupTask_setKey_other st.1 (np t0.path) p t0 hp]
      have : ([t0].find? (fun t => np t.path == p)) = none := by
        rw [List.find?_cons_of_neg _ (by
          simp only [beq_iff_eq]
          intro he
          exact hp he.symm)]
        rfl
      rw [this]
      rfl

/-- `taskMap.get` on the built map: the last declared blueprint at that
normalized path. -/
theorem buildGraph_lookup (np : String → String) (tasks : List TemplateTask)
    (p : String) :
    lookupTask (buildGraph np tasks).1 p =
      tasks.reverse.find? (fun t => np t.path == p) := by
  unfold buildGraph
  rw [buildFold_lookup np tasks ([], []) p]
  show (tasks.reverse.find? (fun t => np t.path == p)).or none = _
  rw [Option.or_none]

theorem buildGraph_lookup_mem (np : String → String) (tasks : List TemplateTask)
    (p : String) (t : TemplateTask)
    (h : lookupTask (buildGraph np tasks).1 p = some t) :
    t ∈ tasks ∧ np t.path = p := by
  rw [buildGraph_lookup] at h
  have h2 := List.find?_some h
  exact ⟨List.mem_reverse.mp (List.mem_of_find?_eq_some h), beq_iff_eq.mp h2⟩

theorem buildGraph_lookup_self (np : String → String) (tasks : List TemplateTask)
    (hdis : (tasks.map (fun t => np t.path)).Nodup)
    (t : TemplateTask) (ht : t ∈ tasks) :
    lookupTask (buildGraph np tasks).1 (np t.path) = some t := by
  rw [buildGraph_lookup]
  have hsome : (tasks.reverse.find? (fun t' => np t'.path == np t.path)).isSome := by
    rw [List.find?_isSome]
    exact ⟨t, List.mem_reverse.mpr ht, beq_self_eq_true _⟩
  obtain ⟨t', ht'⟩ := Option.isSome_iff_exists.mp hsome
  have h1 : t' ∈ tasks := List.mem_reverse.mp (List.mem_of_find?_eq_some ht')
  have h2b := List.find?_some ht'
  have h2 : np t'.path = np t.path := beq_iff_eq.mp h2b
  rw [ht', List.inj_on_of_nodup_map hdis h1 ht h2]

theorem buildFold_keys_of_mem (np : String → String) :
    ∀ (ts : List TemplateTask) (st : TaskMap × Graph),
      ∀ t ∈ ts, np t.path ∈ gKeys (ts.foldl (addTaskToGraph np) st).2 := by
  intro ts
  induction ts with
  | nil => intro st t ht; cases ht
  | cons t0 ts ih =>
    intro st t ht
    rcases List.mem_cons.mp ht with rfl | ht
    · exact buildFold_keys_sub np ts (addTaskToGraph np st t) _
        (addTask_keys_self np st t)
    · exact ih (addTaskToGraph np st t0) t ht

/-- `sortTasksFn` unfolded. -/
theorem sortTasksFn_eq (np : String → String) (tasks : List TemplateTask) :
    sortTasksFn np tasks =
      (topoOrder (buildGraph np tasks).2).filterMap
        (lookupTask (buildGraph np tasks).1) := rfl

/-- Derives acyclicity from any strictly edge-decreasing rank function; at a
concrete graph its hypothesis is decidable. -/
theorem acyclic_of_rank (g : Graph) (f : String → Nat)
    (h : ∀ kv ∈ g, ∀ d ∈ kv.2, f d < f kv.1) : AcyclicG g := by
  have hedge : ∀ a b, edgeG g a b → f b < f a := by
    intro a b hab
    unfold edgeG depsOf at hab
    cases hf : g.find? (fun kv => kv.1 == a) with
    | none => rw [hf] at hab; cases hab
    | some kv =>
      rw [hf] at hab
      have hkv : kv ∈ g := List.mem_of_find?_eq_some hf
      have hk := List.find?_some hf
      have hlt := h kv hkv b hab
      rw [beq_iff_eq.mp hk] at hlt
      exact hlt
  intro a hta
  have hdec : ∀ x y, Relation.TransGen (edgeG g) x y → f y < f x := by
    intro x y hxy
    induction hxy with
    | single h1 => exact hedge _ _ h1
    | tail _ hl ih => exact Nat.lt_trans (hedge _ _ hl) ih
  exact Nat.lt_irrefl _ (hdec a a hta)

/-- Claim C1. For every blueprint list whose built dependency graph is acyclic
and whose normalized paths are distinct (the blueprints form a *set* keyed by
path), and for every interpolation/normalization pipeline `np` — hence for
every variable context — the sorter's output contains every blueprint, and
places each blueprint after every blueprint named by one of its
(interpolated, normalized) explicit dependencies and after the blueprint at
its derived parent path, regardless of the declaration order.
(`List.Sublist [tb, ta] out` states that `tb` occurs strictly before `ta`.) -/
theorem claim_sorter_ordering (np : String → String) (tasks : List TemplateTask)
    (hdis : (tasks.map (fun t => np t.path)).Nodup)
    (hacyc : AcyclicG (buildGraph np tasks).2) :
    (∀ t ∈ tasks, t ∈ sortTasksFn np tasks) ∧
    (∀ ta ∈ tasks, ∀ tb ∈ tasks,
      (np tb.path ∈ (ta.dependencies.getD []).map np ∨
        ((splitPath (np ta.path)).length > 1 ∧
          np tb.path = joinSegs (splitPath (np ta.path)).dropLast)) →
      List.Sublist [tb, ta] (sortTasksFn np tasks)) := by
  have hedges := buildFold_edges np tasks ([], []) hdis
  have hmem : ∀ t ∈ tasks, t ∈ sortTasksFn np tasks := by
    intro t ht
    rw [sortTasksFn_eq]
    apply List.mem_filterMap.mpr
    exact ⟨np t.path,
      (topoOrder_keys (buildGraph np tasks).2).1 _ (hedges t ht).1,
      buildGraph_lookup_self np tasks hdis t ht⟩
  refine ⟨hmem, ?_⟩
  intro ta hta tb htb hdep
  have hedge : np tb.path ∈ depsOf (buildGraph np tasks).2 (np ta.path) := by
    rcases hdep with hdep | ⟨hlen, hpar⟩
    · obtain ⟨dep, hdmem, hde⟩ := List.mem_map.mp hdep
      exact hde ▸ (hedges ta hta).2.1 dep hdmem
    · rw [hpar]
      exact (hedges ta hta).2.2 hlen
  have hsb : List.Sublist [np tb.path, np ta.path]
      (topoOrder (buildGraph np tasks).2) :=
    topoOrder_ordering (buildGraph np tasks).2 hacyc (np ta.path)
      ((topoOrder_keys _).1 _ (hedges ta hta).1) (np tb.path) hedge
  have hfm := List.Sublist.filterMap (lookupTask (buildGraph np tasks).1) hsb
  rw [sortTasksFn_eq]
  have hcomp : List.filterMap (lookupTask (buildGraph np tasks).1)
      [np tb.path, np ta.path] = [tb, ta] := by
    rw [List.filterMap_cons, buildGraph_lookup_self np tasks hdis tb htb]
    rw [List.filterMap_cons, buildGraph_lookup_self np tasks hdis ta hta]
    rfl
  rw [hcomp] at hfm
  exact hfm

/-- Concrete blueprints used by witnesses: the spec's example. -/
def blueAB : TemplateTask := { path := "a/b", title := "AB", type := "TASK" }

/-- The spec's second example blueprint, declared *before* its dependency. -/
def blueABC : TemplateTask :=
  { path := "a/b/c", title := "ABC", type := "TASK", dependencies := some ["a/b"] }

/-- Witness for C1 at the spec's example, declared in reversed order: the
output still contains both blueprints with `a/b` before `a/b/c`. -/
theorem claim_sorter_ordering_witness :
    blueABC ∈ sortTasksFn id [blueABC, blueAB] ∧
    List.Sublist [blueAB, blueABC] (sortTasksFn id [blueABC, blueAB]) := by
  have h := claim_sorter_ordering id [blueABC, blueAB] (by decide)
    (acyclic_of_rank _ (fun s => (splitPath s).length) (by decide))
  exact ⟨h.1 blueABC (by simp),
    h.2 blueABC (by simp) blueAB (by simp) (Or.inl (by decide))⟩

/-- Claim C8. A dependency string on a blueprint whose normalized node is not
the normalized path of any blueprint of the same call is still added to the
dependency graph as a bare node (no existence check), participates in the
node ordering, has no blueprint associated with it in the task map, and is
dropped from the returned sequence — the output contains only blueprints of
this call. -/
theorem claim_bare_dependency_nodes (np : String → String)
    (tasks : List TemplateTask) (t : TemplateTask) (ht : t ∈ tasks)
    (dep : String) (hdep : dep ∈ t.dependencies.getD [])
    (hbare : np dep ∉ tasks.map (fun t' => np t'.path)) :
    np dep ∈ gKeys (buildGraph np tasks).2 ∧
    np dep ∈ topoOrder (buildGraph np tasks).2 ∧
    lookupTask (buildGraph np tasks).1 (np dep) = none ∧
    (∀ x ∈ sortTasksFn np tasks, x ∈ tasks) := by
  have hkey : np dep ∈ gKeys (buildGraph np tasks).2 :=
    buildFold_dep_keys np tasks ([], []) t ht dep hdep
  refine ⟨hkey, (topoOrder_keys _).1 _ hkey, ?_, ?_⟩
  · rw [buildGraph_lookup, List.find?_eq_none]
    intro t' ht' hbeq
    have he : np t'.path = np dep := beq_iff_eq.mp hbeq
    exact hbare (he ▸ List.mem_map_of_mem (fun t' => np t'.path)
      (List.mem_reverse.mp ht'))
  · intro x hx
    rw [sortTasksFn_eq] at hx
    obtain ⟨p, _, hlk⟩ := List.mem_filterMap.mp hx
    exact (buildGraph_lookup_mem np tasks p x hlk).1

/-- Witness for C8: the `a/b` dependency of `a/b/c` when `a/b` is not itself
declared as a blueprint. -/
theorem claim_bare_dependency_nodes_witness :
    "a/b" ∈ gKeys (buildGraph id [blueABC]).2 ∧
    "a/b" ∈ topoOrder (buildGraph id [blueABC]).2 ∧
    lookupTask (buildGraph id [blueABC]).1 "a/b" = none ∧
    (∀ x ∈ sortTasksFn id [blueABC], x ∈ [blueABC]) :=
  claim_bare_dependency_nodes id [blueABC] blueABC (by simp) "a/b"
    (by decide) (by decide)

theorem find?_cons_eq_some_self {α : Type} (x : α) (l : List α) (f : α → Bool)
    (h : f x = true) : (x :: l).find? f = some x := by
  simp only [List.find?_cons, h]

theorem find?_cons_eq_rest {α : Type} (x : α) (l : List α) (f : α → Bool)
    (h : f x = false) : (x :: l).find? f = l.find? f := by
  simp only [List.find?_cons, h]

theorem filterMap_single_of_unique {α : Type} (l : List String)
    (f : String → Option α) (p : String) (a : α) :
    l.Nodup → p ∈ l → f p = some a → (∀ x ∈ l, x ≠ p → f x = none) →
    l.filterMap f = [a] := by
  induction l with
  | nil => intro _ hp; cases hp
  | cons x xs ih =>
    intro hnd hp hf hother
    by_cases hxp : x = p
    · subst hxp
      rw [List.filterMap_cons, hf]
      have hrest : xs.filterMap f = [] := by
        rw [List.filterMap_eq_nil_iff]
        intro y hy
        exact hother y (List.mem_cons_of_mem x hy)
          (fun he => (List.nodup_cons.mp hnd).1 (he ▸ hy))
      rw [hrest]
    · have hfx : f x = none := hother x (List.mem_cons_self x xs) hxp
      rw [List.filterMap_cons, hfx]
      exact ih (List.nodup_cons.mp hnd).2
        (by rcases List.mem_cons.mp hp with he | hm
            · exact absurd he.symm hxp
            · exact hm)
        hf (fun y hy hne => hother y (List.mem_cons_of_mem x hy) hne)

/-- Claim C10. The sorter's path-to-blueprint map keeps, for each normalized
path, only the later-declared blueprint; with two same-path blueprints the
returned sequence is exactly the later blueprint once, the earlier one being
silently dropped; and the returned sequence is a permutation of the input
blueprints whenever all normalized blueprint paths are distinct. -/
theorem claim_duplicate_paths (np : String → String) :
    (∀ (tasks : List TemplateTask) (p : String),
      lookupTask (buildGraph np tasks).1 p =
        tasks.reverse.find? (fun t => np t.path == p)) ∧
    (∀ t1 t2 : TemplateTask, np t1.path = np t2.path →
      sortTasksFn np [t1, t2] = [t2]) ∧
    (∀ tasks : List TemplateTask, (tasks.map (fun t => np t.path)).Nodup →
      (sortTasksFn np tasks).Perm tasks) := by
  refine ⟨buildGraph_lookup np, ?_, ?_⟩
  · intro t1 t2 hpp
    rw [sortTasksFn_eq]
    have hgood := buildGraph_good np [t1, t2]
    apply filterMap_single_of_unique _ _ (np t2.path) t2
    · exact (topoOrder_keys _).2
    · exact (topoOrder_keys _).1 _ (buildFold_keys_of_mem np [t1, t2] ([], [])
        t2 (by simp))
    · rw [buildGraph_lookup]
      show ([t2, t1].find? (fun t => np t.path == np t2.path)) = some t2
      exact find?_cons_eq_some_self t2 [t1] _ (beq_self_eq_true _)
    · intro x _ hne
      rw [buildGraph_lookup]
      show ([t2, t1].find? (fun t => np t.path == x)) = none
      rw [find?_cons_eq_rest t2 [t1] _ (by
          simp only [beq_eq_false_iff_ne, ne_eq]
          intro he
          exact hne he.symm),
        find?_cons_eq_rest t1 [] _ (by
          simp only [beq_eq_false_iff_ne, ne_eq]
          intro he
          exact hne (by rw [← he, hpp]))]
      rfl
  · intro tasks hdis
    have hgood := buildGraph_good np tasks
    have hnd1 : (sortTasksFn np tasks).Nodup := by
      rw [sortTasksFn_eq]
      apply List.Nodup.filterMap ?_ (topoOrder_keys _).2
      intro p q t hp hq
      have h1 := (buildGraph_lookup_mem np tasks p t hp).2
      have h2 := (buildGraph_lookup_mem np tasks q t hq).2
      rw [← h1, ← h2]
    have hnd2 : tasks.Nodup := hdis.of_map
    rw [List.perm_ext_iff_of_nodup hnd1 hnd2]
    intro t
    constructor
    · intro hx
      rw [sortTasksFn_eq] at hx
      obtain ⟨p, _, hlk⟩ := List.mem_filterMap.mp hx
      exact (buildGraph_lookup_mem np tasks p t hlk).1
    · intro ht
      rw [sortTasksFn_eq]
      exact List.mem_filterMap.mpr ⟨np t.path,
        (topoOrder_keys _).1 _ (buildFold_keys_of_mem np tasks ([], []) t ht),
        buildGraph_lookup_self np tasks hdis t ht⟩

/-- A later-declared blueprint sharing `blueAB`'s path. -/
def blueAB2 : TemplateTask := { path := "a/b", title := "AB2", type := "MILESTONE" }

/-- Witness for C10: with duplicate path `a/b` only the later blueprint is
returned; with distinct paths the output is a permutation of the input. -/
theorem claim_duplicate_paths_witness :
    sortTasksFn id [blueAB, blueAB2] = [blueAB2] ∧
    (sortTasksFn id [blueABC, blueAB]).Perm [blueABC, blueAB] :=
  ⟨(claim_duplicate_paths id).2.1 blueAB blueAB2 rfl,
   (claim_duplicate_paths id).2.2 [blueABC, blueAB] (by decide)⟩

/-! ### Reentrancy-set lemmas -/

theorem contains_false_iff (l : List String) (a : String) :
    l.contains a = false ↔ a ∉ l := by
  constructor
  · intro h hm
    have h2 : l.elem a = true := List.elem_iff.mpr hm
    rw [show l.contains a = l.elem a from rfl, h2] at h
    cases h
  · intro hm
    cases hc : l.contains a
    · rfl
    · exact absurd (List.elem_iff.mp hc) hm

theorem erase_append_self (l : List String) (a : String) (h : a ∉ l) :
    (l ++ [a]).erase a = l := by
  rw [List.erase_append_right _ h]
  simp

/-- Fuel-0 unfolding of `instantiateTemplate`. -/
theorem instantiateTemplate_zero (E : Env) (opts : InstOptions) (w : World) :
    instantiateTemplate E 0 opts w =
      if w.processing.contains opts.templateId then
        (Except.error (TmplError.circularTemplateReference opts.templateId), w)
      else (Except.error TmplError.depthExceeded, w) := rfl

/-- Successor-fuel unfolding of `instantiateTemplate`. -/
theorem instantiateTemplate_succ (E : Env) (fuel : Nat) (opts : InstOptions)
    (w : World) :
    instantiateTemplate E (fuel + 1) opts w =
      if w.processing.contains opts.templateId then
        (Except.error (TmplError.circularTemplateReference opts.templateId), w)
      else
        let w0 : World := { w with processing := w.processing ++ [opts.templateId] }
        let body := instantiateBody E (instantiateTemplate E fuel) opts w0
        (body.1, { body.2 with processing := body.2.processing.erase opts.templateId }) := rfl

/-- Any rejected (reentrant) call leaves everything unchanged. -/
theorem instantiateTemplate_of_contains (E : Env) (fuel : Nat)
    (opts : InstOptions) (w : World)
    (h : w.processing.contains opts.templateId = true) :
    instantiateTemplate E fuel opts w =
      (Except.error (TmplError.circularTemplateReference opts.templateId), w) := by
  cases fuel with
  | zero => rw [instantiateTemplate_zero, if_pos h]
  | succ f => rw [instantiateTemplate_succ, if_pos h]

theorem createTaskW_ok_eq (E : Env) (w : World) (input : TaskInput) (w' : World)
    (h : createTaskW E w input = Except.ok w') :
    w' = { w with tasks := w.tasks ++ [input] } := by
  unfold createTaskW at h
  split at h
  · cases h
  · cases h
    rfl

theorem createTaskW_processing (E : Env) (w : World) (input : TaskInput)
    (w' : World) (h : createTaskW E w input = Except.ok w') :
    w'.processing = w.processing := by
  rw [createTaskW_ok_eq E w input w' h]

/-- `processTemplateTask` touches only the task list, never the Reentrancy
Set, provided the recursive entry point it is given does the same. -/
theorem processTemplateTask_processing (E : Env)
    (inst : InstOptions → World → Except TmplError Unit × World)
    (hinst : ∀ o w', ((inst o w').2).processing = w'.processing)
    (task : TemplateTask) (vars : VarCtx) (pp : Option String) (w : World) :
    ((processTemplateTask E inst task vars pp w).2).processing = w.processing := by
  unfold processTemplateTask
  split
  · rfl
  · rename_i w1 heq
    have hw1 : w1.processing = w.processing := by
      unfold ensureParent at heq
      split at heq
      · split at heq
        · exact createTaskW_processing E w _ w1 heq
        · cases heq
          rfl
      · cases heq
        rfl
    split
    · rename_i r
      split
      · exact hw1
      · rename_i w2 heq2
        rw [hinst, createTaskW_processing E w1 _ w2 heq2, hw1]
    · split
      · exact hw1
      · rename_i w2 heq2
        rw [createTaskW_processing E w1 _ w2 heq2, hw1]

/-- The materialization loop preserves the Reentrancy Set. -/
theorem processList_processing (E : Env)
    (inst : InstOptions → World → Except TmplError Unit × World)
    (hinst : ∀ o w', ((inst o w').2).processing = w'.processing) :
    ∀ (ts : List TemplateTask) (vars : VarCtx) (pp : Option String) (w : World),
      ((processList E inst ts vars pp w).2).processing = w.processing := by
  intro ts
  induction ts with
  | nil => intro vars pp w; rfl
  | cons t ts ih =>
    intro vars pp w
    unfold processList
    split
    · rename_i u w1 heq
      have h1 : ((processTemplateTask E inst t vars pp w).2).processing = w.processing :=
        processTemplateTask_processing E inst hinst t vars pp w
      rw [heq] at h1
      rw [ih vars pp w1, h1]
    · rename_i e w1 heq
      have h1 : ((processTemplateTask E inst t vars pp w).2).processing = w.processing :=
        processTemplateTask_processing E inst hinst t vars pp w
      rw [heq] at h1
      exact h1

/-- The `try` block preserves the Reentrancy Set. -/
theorem instantiateBody_processing (E : Env)
    (inst : InstOptions → World → Except TmplError Unit × World)
    (hinst : ∀ o w', ((inst o w').2).processing = w'.processing)
    (opts : InstOptions) (w0 : World) :
    ((instantiateBody E inst opts w0).2).processing = w0.processing := by
  unfold instantiateBody
  split
  · rfl
  · dsimp only
    split
    · exact processList_processing E inst hinst _ _ _ _
    · rfl

/-- Guaranteed release: every `instantiateTemplate` call — successful or not —
returns with the Reentrancy Set it was given. -/
theorem instantiateTemplate_processing (E : Env) :
    ∀ (fuel : Nat) (opts : InstOptions) (w : World),
      ((instantiateTemplate E fuel opts w).2).processing = w.processing := by
  intro fuel
  induction fuel with
  | zero =>
    intro opts w
    rw [instantiateTemplate_zero]
    split
    · rfl
    · rfl
  | succ f ih =>
    intro opts w
    rw [instantiateTemplate_succ]
    split
    · rfl
    · rename_i hnc
      simp only [Bool.not_eq_true] at hnc
      show ((instantiateBody E (instantiateTemplate E f) opts
          { w with processing := w.processing ++ [opts.templateId] }).2).processing.erase
          opts.templateId = w.processing
      rw [instantiateBody_processing E (instantiateTemplate E f) (fun o w' => ih o w')]
      show (w.processing ++ [opts.templateId]).erase opts.templateId = w.processing
      exact erase_append_self _ _ ((contains_false_iff _ _).mp hnc)

/-- Claim C9. A call rejected by the reentrancy check changes nothing: it
returns `CircularTemplateReference` with the world — Reentrancy Set and task
store alike — exactly as it was, so the entry held by the in-flight outer
call survives the rejection. -/
theorem claim_reentrant_reject (E : Env) (fuel : Nat) (opts : InstOptions)
    (w : World) (h : w.processing.contains opts.templateId = true) :
    instantiateTemplate E fuel opts w =
      (Except.error (TmplError.circularTemplateReference opts.templateId), w) :=
  instantiateTemplate_of_contains E fuel opts w h

/-- Witness for C9 at a concrete world whose Reentrancy Set holds `"t1"`. -/
theorem claim_reentrant_reject_witness :
    instantiateTemplate
      { normalize := fun s => s, joinP := fun a b => a ++ "/" ++ b,
        ipStr := fun _ s => s, ipMeta := fun _ m => m,
        transformMeta := fun m => m, templates := [],
        createFails := fun _ => false }
      3 { templateId := "t1", vars := [] } { tasks := [], processing := ["t1"] } =
      (Except.error (TmplError.circularTemplateReference "t1"),
        { tasks := [], processing := ["t1"] }) :=
  claim_reentrant_reject _ 3 _ _ (by decide)

/-- Claim C4. The reentrancy guard: a call for an id already in the Reentrancy
Set fails with `CircularTemplateReference`; otherwise the id is inserted on
entry and removed on every exit path, so the Reentrancy Set after any call is
exactly the set before it, and in particular the id is absent after the
outermost call for it returns. -/
theorem claim_guard_always_released (E : Env) (fuel : Nat)
    (opts : InstOptions) (w : World) :
    (w.processing.contains opts.templateId = true →
      instantiateTemplate E fuel opts w =
        (Except.error (TmplError.circularTemplateReference opts.templateId), w)) ∧
    ((instantiateTemplate E fuel opts w).2).processing = w.processing ∧
    (w.processing.contains opts.templateId = false →
      ((instantiateTemplate E fuel opts w).2).processing.contains
        opts.templateId = false) := by
  refine ⟨fun h => instantiateTemplate_of_contains E fuel opts w h,
    instantiateTemplate_processing E fuel opts w, fun h => ?_⟩
  rw [instantiateTemplate_processing E fuel opts w]
  exact h

/-- Claim C5. When the declared required variables missing from the resolved
context are non-empty, `instantiateTemplate` fails with `MissingVariables`
carrying that list and returns the world unchanged — zero task creations.
(`validateRequiredVariables` is modelled from the spec's collaborator
contract: the required declared names absent from the context.) -/
theorem claim_missing_variables (E : Env) (fuel : Nat) (opts : InstOptions)
    (w : World) (template : TaskTemplate)
    (hnc : w.processing.contains opts.templateId = false)
    (hget : getTemplateE E opts.templateId = some template)
    (hmiss : validateRequiredVariables template.vars
        (resolveVariables opts.vars template.vars) ≠ []) :
    instantiateTemplate E (fuel + 1) opts w =
      (Except.error (TmplError.missingVariables
        (validateRequiredVariables template.vars
          (resolveVariables opts.vars template.vars))), w) := by
  rw [instantiateTemplate_succ,
    if_neg (by rw [hnc]; exact Bool.false_ne_true)]
  dsimp only
  have hbody : instantiateBody E (instantiateTemplate E fuel) opts
      { w with processing := w.processing ++ [opts.templateId] } =
      (Except.error (TmplError.missingVariables
        (validateRequiredVariables template.vars
          (resolveVariables opts.vars template.vars))),
        { w with processing := w.processing ++ [opts.templateId] }) := by
    unfold instantiateBody
    rw [hget]
    dsimp only
    rw [if_neg ?hemp]
    case hemp =>
      intro hemp
      exact hmiss (List.isEmpty_iff.mp hemp)
  rw [hbody]
  dsimp only
  rw [erase_append_self _ _ ((contains_false_iff _ _).mp hnc)]

/-- Witness for C5: a template requiring `"y"` with nothing supplied. -/
theorem claim_missing_variables_witness :
    instantiateTemplate
      { normalize := fun s => s, joinP := fun a b => a ++ "/" ++ b,
        ipStr := fun _ s => s, ipMeta := fun _ m => m,
        transformMeta := fun m => m,
        templates := [("t1",
          { id := "t1", vars := [{ name := "y", required := true }],
            tasks := [{ path := "a", title := "A", type := "TASK" }] })],
        createFails := fun _ => false }
      4 { templateId := "t1", vars := [] } { tasks := [], processing := [] } =
      (Except.error (TmplError.missingVariables ["y"]),
        { tasks := [], processing := [] }) := by
  have h := claim_missing_variables
    { normalize := fun s => s, joinP := fun a b => a ++ "/" ++ b,
      ipStr := fun _ s => s, ipMeta := fun _ m => m,
      transformMeta := fun m => m,
      templates := [("t1",
        { id := "t1", vars := [{ name := "y", required := true }],
          tasks := [{ path := "a", title := "A", type := "TASK" }] })],
      createFails := fun _ => false }
    3 { templateId := "t1", vars := [] } { tasks := [], processing := [] }
    { id := "t1", vars := [{ name := "y", required := true }],
      tasks := [{ path := "a", title := "A", type := "TASK" }] }
    (by decide) (by decide) (by decide)
  exact h

/-- Witness for C6 at a concrete context and declaration list. -/
theorem claim_resolveVariables_merge_witness :
    lookupVar (resolveVariables [("a", Value.num 1)]
      [{ name := "x", required := false, default := some (Value.num 5) },
       { name := "a", required := false, default := some (Value.num 9) },
       { name := "z", required := false }]) "x" = some (Value.num 5) ∧
    lookupVar (resolveVariables [("a", Value.num 1)]
      [{ name := "x", required := false, default := some (Value.num 5) },
       { name := "a", required := false, default := some (Value.num 9) },
       { name := "z", required := false }]) "a" = some (Value.num 1) ∧
    lookupVar (resolveVariables [("a", Value.num 1)]
      [{ name := "x", required := false, default := some (Value.num 5) },
       { name := "a", required := false, default := some (Value.num 9) },
       { name := "z", required := false }]) "z" = none := by
  have h := claim_resolveVariables_merge [("a", Value.num 1)]
    [{ name := "x", required := false, default := some (Value.num 5) },
     { name := "a", required := false, default := some (Value.num 9) },
     { name := "z", required := false }] (by decide)
  refine ⟨h.1 { name := "x", required := false, default := some (Value.num 5) }
      (by simp) (Value.num 5) rfl (by decide), ?_, ?_⟩
  · have := h.2.1 "a" (by decide)
    rw [this]
    rfl
  · exact h.2.2 { name := "z", required := false } (by simp) rfl (by decide)

/-- Witness for C4 at concrete inputs (both an occupied and a free set). -/
theorem claim_guard_always_released_witness :
    (instantiateTemplate
      { normalize := fun s => s, joinP := fun a b => a ++ "/" ++ b,
        ipStr := fun _ s => s, ipMeta := fun _ m => m,
        transformMeta := fun m => m, templates := [],
        createFails := fun _ => false }
      2 { templateId := "t9", vars := [] }
      { tasks := [], processing := ["t9"] } =
      (Except.error (TmplError.circularTemplateReference "t9"),
        { tasks := [], processing := ["t9"] })) ∧
    ((instantiateTemplate
      { normalize := fun s => s, joinP := fun a b => a ++ "/" ++ b,
        ipStr := fun _ s => s, ipMeta := fun _ m => m,
        transformMeta := fun m => m, templates := [],
        createFails := fun _ => false }
      2 { templateId := "t9", vars := [] }
      { tasks := [], processing := [] }).2).processing.contains "t9" = false := by
  constructor
  · exact (claim_guard_always_released _ 2 _ _).1 (by decide)
  · exact (claim_guard_always_released
      { normalize := fun s => s, joinP := fun a b => a ++ "/" ++ b,
        ipStr := fun _ s => s, ipMeta := fun _ m => m,
        transformMeta := fun m => m, templates := [],
        createFails := fun _ => false }
      2 { templateId := "t9", vars := [] }
      { tasks := [], processing := [] }).2.2 (by decide)

/-! ### Materializer lemmas (ancestor creation and nested templates) -/

/-- The ancestor tasks `processTemplateTask` creates before the blueprint's
own task: the immediate-parent milestone, only when an implicit parent path
exists and no task is stored there yet. -/
def ensuredList (E : Env) (task : TemplateTask) (vars : VarCtx)
    (pp : Option String) (w : World) : List TaskInput :=
  match taskImplicitParent E task vars pp with
  | some par =>
    if (getTaskW w par).isNone then [autoParentInput E task vars pp par] else []
  | none => []

/-- With a non-failing store, the ensure-parent step always succeeds and
appends exactly `ensuredList`. -/
theorem ensureParent_ok (E : Env) (task : TemplateTask) (vars : VarCtx)
    (pp : Option String) (w : World) (hok : ∀ i, E.createFails i = false) :
    ensureParent E task vars pp w =
      Except.ok { w with tasks := w.tasks ++ ensuredList E task vars pp w } := by
  unfold ensureParent ensuredList
  split
  · split
    · unfold createTaskW
      rw [hok _]
      rfl
    · show Except.ok w = _
      cases w
      simp
  · show Except.ok w = _
    cases w
    simp

/-- Claim C2, amended. Materializing a blueprint whose normalized path has
more than one segment ensures only the *immediate* parent: when no task
exists at the derived parent path, a single auto-generated MILESTONE task
(metadata `autoGenerated := true`) is created there, immediately before the
blueprint's own task; when a task already exists there (e.g. created for an
earlier sibling sharing the same parent path) no ancestor task is created,
so a shared parent is created at most once.  More distant ancestors (such as
`"x"` below `"x/y/z"`) are never created by this component. -/
theorem claim_parent_milestone (E : Env)
    (inst : InstOptions → World → Except TmplError Unit × World)
    (task : TemplateTask) (vars : VarCtx) (pp : Option String) (w : World)
    (hlen : (splitPath (taskNormPath E task vars pp)).length > 1)
    (hnoref : (taskTransformedMeta E task vars).bind (fun m => m.ref) = none)
    (hok : ∀ i, E.createFails i = false) :
    taskImplicitParent E task vars pp =
      some (joinSegs (splitPath (taskNormPath E task vars pp)).dropLast) ∧
    ensuredList E task vars pp w =
      (if (getTaskW w (joinSegs (splitPath (taskNormPath E task vars pp)).dropLast)).isNone
       then [autoParentInput E task vars pp
         (joinSegs (splitPath (taskNormPath E task vars pp)).dropLast)]
       else []) ∧
    processTemplateTask E inst task vars pp w =
      (Except.ok (), { w with tasks := w.tasks ++ ensuredList E task vars pp w ++
        [mainTaskInput E task vars pp (taskTransformedMeta E task vars)] }) ∧
    (autoParentInput E task vars pp
      (joinSegs (splitPath (taskNormPath E task vars pp)).dropLast)).type =
      TaskType.MILESTONE ∧
    ((autoParentInput E task vars pp
      (joinSegs (splitPath (taskNormPath E task vars pp)).dropLast)).metadata.map
      (fun mm => mm.autoGenerated)) = some true := by
  have hpar : taskImplicitParent E task vars pp =
      some (joinSegs (splitPath (taskNormPath E task vars pp)).dropLast) := by
    unfold taskImplicitParent
    rw [if_pos hlen]
  refine ⟨hpar, ?_, ?_, rfl, rfl⟩
  · unfold ensuredList
    rw [hpar]
  · unfold processTemplateTask
    rw [ensureParent_ok E task vars pp w hok]
    simp only [hnoref]
    unfold createTaskW
    rw [hok _]
    rfl

/-- A concrete environment with identity collaborators and one template
whose single blueprint lives at `x/y/z`. -/
def envXYZ : Env :=
  { normalize := fun s => s, joinP := fun a b => a ++ "/" ++ b,
    ipStr := fun _ s => s, ipMeta := fun _ m => m, transformMeta := fun m => m,
    templates := [("t",
      { id := "t", vars := [],
        tasks := [{ path := "x/y/z", title := "Z", type := "TASK" }] })],
    createFails := fun _ => false }

/-- The empty world: no tasks, empty Reentrancy Set. -/
def emptyWorld : World := { tasks := [], processing := [] }

/-- Claim C2, counterexample. Instantiating the single blueprint `x/y/z` into
an empty store creates tasks at `x/y` and `x/y/z` only: no task is created at
`x`, refuting "creates auto-generated MILESTONE tasks at both `x` and
`x/y`". -/
theorem claim_ancestor_creation_counterexample :
    ((instantiateTemplate envXYZ 5 { templateId := "t", vars := [] }
      emptyWorld).2).tasks.map (fun t => t.path) = ["x/y", "x/y/z"] ∧
    ((instantiateTemplate envXYZ 5 { templateId := "t", vars := [] }
      emptyWorld).2).tasks.all (fun t => !(t.path == "x")) = true :=
  ⟨rfl, rfl⟩

/-- Witness for the amended C2 at the `x/y/z` blueprint over an empty store. -/
theorem claim_parent_milestone_witness :
    processTemplateTask envXYZ (fun _ w => (Except.ok (), w))
      { path := "x/y/z", title := "Z", type := "TASK" } [] none emptyWorld =
      (Except.ok (),
        { emptyWorld with
          tasks := emptyWorld.tasks ++
            ensuredList envXYZ { path := "x/y/z", title := "Z", type := "TASK" }
              [] none emptyWorld ++
            [mainTaskInput envXYZ { path := "x/y/z", title := "Z", type := "TASK" }
              [] none (taskTransformedMeta envXYZ
                { path := "x/y/z", title := "Z", type := "TASK" } [])] }) :=
  (claim_parent_milestone envXYZ (fun _ w => (Except.ok (), w))
    { path := "x/y/z", title := "Z", type := "TASK" } [] none
    emptyWorld (by decide) rfl (fun _ => rfl)).2.2.1

/-- Claim C7. When the transformed metadata carries a `TemplateRef`, the
materializer first creates the blueprint's task with the ref stripped from
its metadata — type `TASK` mapping to the task kind and any other declared
type to the milestone kind, with the normalized declared dependencies and
the derived implicit parent path — and then invokes the orchestrator
recursively with the ref's template id and variables, using this task's own
normalized path as the new parent path (so the nested template's tasks are
normalized relative to that path). -/
theorem claim_nested_template_ref (E : Env)
    (inst : InstOptions → World → Except TmplError Unit × World)
    (task : TemplateTask) (vars : VarCtx) (pp : Option String) (w : World)
    (m : Meta) (r : TemplateRef)
    (hmeta : taskTransformedMeta E task vars = some m)
    (href : m.ref = some r)
    (hok : ∀ i, E.createFails i = false) :
    processTemplateTask E inst task vars pp w =
      inst { templateId := r.template, vars := r.vars,
             parentPath := some (taskNormPath E task vars pp) }
        { w with tasks := w.tasks ++ ensuredList E task vars pp w ++
          [mainTaskInput E task vars pp (some { m with ref := none })] } ∧
    (mainTaskInput E task vars pp (some { m with ref := none })).type =
      (if task.type == "TASK" then TaskType.TASK else TaskType.MILESTONE) ∧
    (mainTaskInput E task vars pp (some { m with ref := none })).dependencies =
      taskNormDeps E task vars pp ∧
    (mainTaskInput E task vars pp (some { m with ref := none })).parentPath =
      taskImplicitParent E task vars pp := by
  refine ⟨?_, rfl, rfl, rfl⟩
  unfold processTemplateTask
  rw [ensureParent_ok E task vars pp w hok]
  simp only [hmeta, Option.some_bind, href, Option.map_some']
  unfold createTaskW
  rw [hok _]
  rfl

/-- Metadata carrying a nested-template directive, for the C7 witness. -/
def refMeta : Meta := { ref := some { template := "t2", vars := [] } }

/-- A blueprint whose metadata embeds a `TemplateRef`, for the C7 witness. -/
def blueRef : TemplateTask :=
  { path := "r", title := "R", type := "TASK", metadata := some refMeta }

/-- Witness for C7: a blueprint with a ref to template `t2` creates the
cleaned task first and then recurses rooted at its own path. -/
theorem claim_nested_template_ref_witness :
    processTemplateTask envXYZ (fun _ w => (Except.ok (), w)) blueRef [] none
      emptyWorld =
      (Except.ok (),
        { emptyWorld with
          tasks := emptyWorld.tasks ++
            ensuredList envXYZ blueRef [] none emptyWorld ++
            [mainTaskInput envXYZ blueRef [] none
              (some { refMeta with ref := none })] }) :=
  (claim_nested_template_ref envXYZ (fun _ w => (Except.ok (), w)) blueRef []
    none emptyWorld refMeta
    { template := "t2", vars := [] } rfl rfl (fun _ => rfl)).1

end Atlas
